import Mathlib

/-!
The WebSocket session handler of whisper-meet (`main.go`).

A shallow embedding of `handleWebSocket` (and of the pool constructor it
draws its engine context from) together with proofs about audio decoding,
windowed inference triggering, segment aggregation, control commands and
the lifecycle of the borrowed engine context.

Conventions of the embedding:

* a byte is a `Fin 256`, a Go `string` is a `String`, a Go slice is a `List`;
* a `float32` audio sample is a rational number.  Every sample the handler
  produces is `float32(int16(v)) / 32768.0`: a 16-bit integer converts to
  `float32` without rounding and the division by a power of two is exact,
  so the rational value is the value held by the `float32`;
* the speech engine (`whisper.Model`, `whisper.Context`) and the transport
  (`websocket.Conn`) are external: the engine is a record of transition
  functions over an arbitrary engine state, and the transport is a script of
  `ReadMessage` results together with the error results of `WriteMessage`;
* the calls made on the engine, the pool and the transport are recorded, in
  program order, in a trace of `Event`s.
-/

namespace WhisperMeet

/-! ## Application constants -/

/-- Go `time.Second`, in nanoseconds. -/
def Second : Nat := 1000000000

/-- Whisper expects 16kHz audio. -/
def SampleRate : Nat := 16000

/-- Mono audio. -/
def AudioChannels : Nat := 1

/-- Samples are 16-bit PCM. -/
def BitsPerSample : Nat := 16

/-- Length of one audio chunk, `2 * time.Second`, in nanoseconds. -/
def AudioChunkDuration : Nat := 2 * Second

/-- Go `Duration.Seconds`: whole seconds plus the fractional remainder
(`float64(sec) + float64(nsec)/1e9`). -/
def Seconds (d : Nat) : ℚ := ((d / Second : Nat) : ℚ) + ((d % Second : Nat) : ℚ) / 1000000000

/-- Go conversion `int(x)` of a floating-point value: truncation toward zero. -/
def truncToInt (x : ℚ) : Int := if 0 ≤ x then ⌊x⌋ else ⌈x⌉

/-- The expression `int(AudioChunkDuration.Seconds()*SampleRate)`, used both as
the capacity of the audio buffer and as the inference threshold. -/
def chunkSamples : Int := truncToInt (Seconds AudioChunkDuration * (SampleRate : ℚ))

/-! ## Decoding of binary messages -/

/-- One octet of a message. -/
abbrev Byte := Fin 256

/-- One `float32` audio sample. -/
abbrev Sample := ℚ

/-- Go slice expression `s[lo:hi]`.  It fails (a run-time panic in Go) when
the bounds are out of order or `hi` is beyond the length of `s`.  Go itself
checks `hi` against the capacity, which is at least the length, so a slice
that succeeds here succeeds in Go. -/
def goSlice (s : List Byte) (lo hi : Nat) : Option (List Byte) :=
  if lo ≤ hi ∧ hi ≤ s.length then some ((s.drop lo).take (hi - lo)) else none

/-- Go `binary.LittleEndian.Uint16(b)`, which is
`uint16(b[0]) | uint16(b[1])<<8`; it fails when `b` has fewer than two bytes. -/
def littleEndianUint16 (b : List Byte) : Option Nat :=
  match b with
  | b0 :: b1 :: _ => some (b0.val ||| ((b1.val <<< 8) % 65536))
  | _ => none

/-- Go conversion `int16(value)` of a `uint16`: reinterpretation of the 16 bits as a
signed integer. -/
def int16 (value : Nat) : Int :=
  if value % 65536 < 32768 then ((value % 65536 : Nat) : Int)
  else ((value % 65536 : Nat) : Int) - 65536

/-- The expression `float32(int16(value))/32768.0`. -/
def toSample (value : Nat) : Sample := ((int16 value : Int) : ℚ) / 32768

/-- The decoding loop `for i := 0; i < samples; i++ { ... append ... }`,
with `remaining = samples - i` iterations still to run. -/
def decodeLoop (message : List Byte) : (remaining i : Nat) → List Sample → Option (List Sample)
  | 0, _, audioBuffer => some audioBuffer
  | remaining + 1, i, audioBuffer =>
    match goSlice message (i * 2) ((i + 1) * 2) with
    | none => none
    | some b =>
      match littleEndianUint16 b with
      | none => none
      | some value => decodeLoop message remaining (i + 1) (audioBuffer ++ [toSample value])

/-- Processing of binary audio data: `samples := len(message) / (BitsPerSample / 8)`
followed by the decoding loop. -/
def decode (message : List Byte) (audioBuffer : List Sample) : Option (List Sample) :=
  decodeLoop message (message.length / (BitsPerSample / 8)) 0 audioBuffer

/-- The signed 16-bit integer (two-complement) whose low byte is `lo` and
whose high byte is `hi`. -/
def signed16 (lo hi : Byte) : Int :=
  if hi.val < 128 then (lo.val : Int) + 256 * (hi.val : Int)
  else (lo.val : Int) + 256 * (hi.val : Int) - 65536

/-- The samples carried by a message: one per complete little-endian byte
pair, a trailing odd byte being dropped. -/
def pcmSamples : List Byte → List Sample
  | lo :: hi :: rest => ((signed16 lo hi : Int) : ℚ) / 32768 :: pcmSamples rest
  | _ => []

/-! ## The external collaborators -/

/-- Config holds the application configuration. -/
structure Config where
  ModelPath : String
  ListenAddr : String
  Language : String

/-- WhisperContext wraps the Whisper context and model.  `M` is the type of
model handles (`whisper.Model`), `C` the type of inference-context handles
(`whisper.Context`). -/
structure WhisperContext (M C : Type) where
  Model : M
  Context : C

/-- The part of `whisper.Segment` that the handler reads. -/
structure Segment where
  Text : String
  deriving DecidableEq

/-- The speech-recognition library, as a deterministic machine over an
arbitrary state `σ`.  A Go result `(x, err)` is `some x` when `err == nil` and
`none` otherwise; a Go result `err` alone is `true` when `err == nil`. -/
structure Engine (σ M C : Type) where
  /-- Go `whisper.New(path)`. -/
  New : σ → String → Option M × σ
  /-- Go `model.Close()`. -/
  Close : σ → M → σ
  /-- Go `model.NewContext()`. -/
  NewContext : σ → M → Option C × σ
  /-- Go `ctx.SetLanguage(lang)`. -/
  SetLanguage : σ → C → String → Bool × σ
  /-- Go `ctx.Process(data, nil, nil)`. -/
  Process : σ → C → List Sample → Bool × σ
  /-- Go `ctx.NextSegment()`. -/
  NextSegment : σ → C → Option Segment × σ

/-- The calls the handler makes on its collaborators. -/
inductive Event (M C : Type) where
  /-- Go `app.upgrader.Upgrade(w, r, nil)`. -/
  | upgrade
  /-- Go `conn.ReadMessage()`. -/
  | read
  /-- Go `conn.WriteMessage(websocket.TextMessage, []byte(payload))`. -/
  | writeText (payload : String)
  /-- Go `conn.WriteMessage(websocket.CloseMessage, ...)`. -/
  | writeClose
  /-- Go `conn.Close()`. -/
  | connClose
  /-- Go `app.contexts.Get()`. -/
  | poolGet
  /-- Go `app.contexts.Put(whisperCtx)`. -/
  | poolPut (whisperCtx : WhisperContext M C)
  /-- Go `whisper.New(path)`. -/
  | whisperNew (path : String)
  /-- Go `model.Close()`. -/
  | modelClose (model : M)
  /-- Go `model.NewContext()`. -/
  | newContext (model : M)
  /-- Go `ctx.SetLanguage(lang)`. -/
  | setLanguage (ctx : C) (lang : String)
  /-- Go `ctx.Process(data, nil, nil)`. -/
  | process (ctx : C) (data : List Sample)
  /-- Go `ctx.NextSegment()`. -/
  | nextSegment (ctx : C)

/-- What one call of `conn.ReadMessage()` returns. -/
inductive ReadResult where
  /-- The call returned `err != nil`. -/
  | err
  /-- A message of type `websocket.BinaryMessage`. -/
  | binary (message : List Byte)
  /-- A message of type `websocket.TextMessage`; `message` is `string(message)`. -/
  | text (message : String)
  /-- A message of any other type. -/
  | other (messageType : Nat) (message : List Byte)

/-- One iteration of the read loop as the transport drives it: the result of
`ReadMessage`, and whether `WriteMessage` returns an error if a transcription
is written during the iteration (the only write whose result the handler
inspects). -/
structure Inbound where
  read : ReadResult
  writeErr : Bool

/-- The variables of the read loop: the state of the engine, the pooled
`*WhisperContext` and the audio buffer. -/
structure Session (σ M C : Type) where
  engine : σ
  whisperCtx : WhisperContext M C
  audioBuffer : List Sample

/-- How one iteration of the read loop ends. -/
inductive Flow where
  /-- The iteration reached its end, or `continue`. -/
  | next
  /-- The iteration left the loop with `break`. -/
  | leave
  /-- The segment loop did not finish within the fuel. -/
  | stuck
  /-- A run-time panic. -/
  | panic
  deriving DecidableEq

/-- The result of one iteration: the calls made, the loop variables and the
control flow. -/
structure Step (σ M C : Type) where
  trace : List (Event M C)
  session : Session σ M C
  flow : Flow

/-! ## The handler -/

/-- The segment loop
`for { segment, err := NextSegment(); if err != nil { break }; segments = append(segments, segment.Text) }`.
The result is the calls made, the engine state, and the segments when the
loop finished within `fuel` iterations. -/
def drainSegments {σ M C : Type} (E : Engine σ M C) (ctx : C) :
    Nat → σ → List String → List (Event M C) × σ × Option (List String)
  | 0, w, _ => ([], w, none)
  | fuel + 1, w, segments =>
    match E.NextSegment w ctx with
    | (none, w1) => ([Event.nextSegment ctx], w1, some segments)
    | (some segment, w1) =>
      let r := drainSegments E ctx fuel w1 (segments ++ [segment.Text])
      (Event.nextSegment ctx :: r.1, r.2)

/-- The loop `for _, segment := range segments { combinedText += segment + " " }`. -/
def combineText (segments : List String) : String :=
  segments.foldl (fun combinedText segment => combinedText ++ (segment ++ " ")) ""

/-- The branch `messageType == websocket.BinaryMessage` of the read loop. -/
def handleBinary {σ M C : Type} (E : Engine σ M C) (fuel : Nat) (st : Session σ M C)
    (message : List Byte) (writeErr : Bool) : Step σ M C :=
  match decode message st.audioBuffer with
  | none => ⟨[], st, Flow.panic⟩
  | some audioBuffer =>
    if chunkSamples ≤ (audioBuffer.length : Int) then
      let ctx := st.whisperCtx.Context
      let p := E.Process st.engine ctx audioBuffer
      let t1 : List (Event M C) :=
        if p.1 then [Event.process ctx audioBuffer]
        else [Event.process ctx audioBuffer,
              Event.writeText "Error: Server unable to process audio"]
      let d := drainSegments E ctx fuel p.2 []
      match d.2.2 with
      | none => ⟨t1 ++ d.1, ⟨d.2.1, st.whisperCtx, audioBuffer⟩, Flow.stuck⟩
      | some segments =>
        if 0 < segments.length then
          let combinedText := combineText segments
          if writeErr then
            ⟨t1 ++ d.1 ++ [Event.writeText combinedText],
              ⟨d.2.1, st.whisperCtx, audioBuffer⟩, Flow.leave⟩
          else
            ⟨t1 ++ d.1 ++ [Event.writeText combinedText],
              ⟨d.2.1, st.whisperCtx, []⟩, Flow.next⟩
        else
          ⟨t1 ++ d.1, ⟨d.2.1, st.whisperCtx, []⟩, Flow.next⟩
    else
      ⟨[], ⟨st.engine, st.whisperCtx, audioBuffer⟩, Flow.next⟩

/-- The branch `messageType == websocket.TextMessage` of the read loop. -/
def handleText {σ M C : Type} (E : Engine σ M C) (st : Session σ M C) (cmd : String) :
    Step σ M C :=
  if cmd = "reset" then
    match E.NewContext st.engine st.whisperCtx.Model with
    | (none, w1) =>
      ⟨[Event.newContext st.whisperCtx.Model, Event.writeText "Error: Reset failed"],
        ⟨w1, st.whisperCtx, st.audioBuffer⟩, Flow.next⟩
    | (some newCtx, w1) =>
      ⟨[Event.newContext st.whisperCtx.Model, Event.writeText "Transcription reset"],
        ⟨w1, ⟨st.whisperCtx.Model, newCtx⟩, st.audioBuffer⟩, Flow.next⟩
  else
    ⟨[Event.writeText "Unknown command"], st, Flow.next⟩

/-- One iteration of the read loop once `ReadMessage` has returned: the check
of its error and the dispatch on the message type. -/
def handleMessage {σ M C : Type} (E : Engine σ M C) (fuel : Nat) (st : Session σ M C)
    (msg : Inbound) : Step σ M C :=
  match msg.read with
  | ReadResult.err => ⟨[], st, Flow.leave⟩
  | ReadResult.binary message => handleBinary E fuel st message msg.writeErr
  | ReadResult.text message => handleText E st message
  | ReadResult.other _ _ => ⟨[], st, Flow.next⟩

/-- The read loop `for { messageType, message, err := conn.ReadMessage(); ... }`
run against the script `inbox` of the transport.  When the script is used up
the connection is gone and `ReadMessage` returns an error. -/
def messageLoop {σ M C : Type} (E : Engine σ M C) (fuel : Nat) :
    List Inbound → Session σ M C → Step σ M C
  | [], st => ⟨[Event.read], st, Flow.leave⟩
  | msg :: inbox, st =>
    let s := handleMessage E fuel st msg
    match s.flow with
    | Flow.next =>
      let r := messageLoop E fuel inbox s.session
      ⟨Event.read :: (s.trace ++ r.trace), r.session, r.flow⟩
    | flow => ⟨Event.read :: s.trace, s.session, flow⟩

/-- The function `New` of the pool `app.contexts`: load the model, create an
initial context and apply the configured language. -/
def poolNew {σ M C : Type} (E : Engine σ M C) (config : Config) (w : σ) :
    List (Event M C) × σ × Option (WhisperContext M C) :=
  match E.New w config.ModelPath with
  | (none, w1) => ([Event.whisperNew config.ModelPath], w1, none)
  | (some model, w1) =>
    match E.NewContext w1 model with
    | (none, w2) =>
      ([Event.whisperNew config.ModelPath, Event.newContext model, Event.modelClose model],
        E.Close w2 model, none)
    | (some ctx, w2) =>
      if config.Language ≠ "" then
        ([Event.whisperNew config.ModelPath, Event.newContext model,
          Event.setLanguage ctx config.Language],
          (E.SetLanguage w2 ctx config.Language).2, some ⟨model, ctx⟩)
      else
        ([Event.whisperNew config.ModelPath, Event.newContext model], w2, some ⟨model, ctx⟩)

/-- Go `app.contexts.Get()` on a `sync.Pool`: the pool hands out one of its
idle items if it chooses to (`idle`), and otherwise the result of `New`. -/
def poolGet {σ M C : Type} (E : Engine σ M C) (config : Config)
    (idle : Option (WhisperContext M C)) (w : σ) :
    List (Event M C) × σ × Option (WhisperContext M C) :=
  match idle with
  | some x => ([Event.poolGet], w, some x)
  | none =>
    let r := poolNew E config w
    (Event.poolGet :: r.1, r.2)

/-- What the surroundings supply to one call of `handleWebSocket`. -/
structure Request (M C : Type) where
  /-- Whether `Upgrade` succeeds. -/
  upgradeOk : Bool
  /-- The idle item the pool chooses to hand out, if any. -/
  idle : Option (WhisperContext M C)
  /-- The script of the transport. -/
  inbox : List Inbound

/-- How a call of `handleWebSocket` ends. -/
inductive Outcome where
  /-- The function returned. -/
  | returned
  /-- The function panicked (its deferred calls have run). -/
  | panicked
  /-- The function is still in its segment loop when the fuel is used up. -/
  | running
  deriving DecidableEq

/-- The deferred calls of `handleWebSocket` that are registered right after
the upgrade: the close message, then `conn.Close()`. -/
def closeConn (M C : Type) : List (Event M C) := [Event.writeClose, Event.connClose]

/-- The function `handleWebSocket` handles WebSocket connections. -/
def handleWebSocket {σ M C : Type} (E : Engine σ M C) (config : Config) (fuel : Nat)
    (req : Request M C) (w : σ) : List (Event M C) × σ × Outcome :=
  if req.upgradeOk then
    match poolGet E config req.idle w with
    | (t0, w1, none) =>
      (Event.upgrade :: (t0 ++ [Event.writeText "Error: Server unable to process audio"]
        ++ closeConn M C), w1, Outcome.returned)
    | (t0, w1, some whisperCtx) =>
      let r := messageLoop E fuel req.inbox ⟨w1, whisperCtx, []⟩
      match r.flow with
      | Flow.stuck => (Event.upgrade :: (t0 ++ r.trace), r.session.engine, Outcome.running)
      | Flow.panic =>
        (Event.upgrade :: (t0 ++ r.trace ++ [Event.poolPut r.session.whisperCtx]
          ++ closeConn M C), r.session.engine, Outcome.panicked)
      | _ =>
        (Event.upgrade :: (t0 ++ r.trace ++ [Event.poolPut r.session.whisperCtx]
          ++ closeConn M C), r.session.engine, Outcome.returned)
  else
    ([Event.upgrade], w, Outcome.returned)

/-! ## Observations on traces -/

/-- The payloads of the text messages written, in order. -/
def textWrites {M C : Type} : List (Event M C) → List String
  | [] => []
  | Event.writeText payload :: rest => payload :: textWrites rest
  | _ :: rest => textWrites rest

/-- The windows submitted to the engine, in order, with the context used. -/
def processCalls {M C : Type} : List (Event M C) → List (C × List Sample)
  | [] => []
  | Event.process ctx data :: rest => (ctx, data) :: processCalls rest
  | _ :: rest => processCalls rest

/-- The contexts on which the engine was called (`Process` or `NextSegment`),
in order. -/
def engineContexts {M C : Type} : List (Event M C) → List C
  | [] => []
  | Event.process ctx _ :: rest => ctx :: engineContexts rest
  | Event.nextSegment ctx :: rest => ctx :: engineContexts rest
  | _ :: rest => engineContexts rest

/-- The items put back into the pool, in order. -/
def poolPuts {M C : Type} : List (Event M C) → List (WhisperContext M C)
  | [] => []
  | Event.poolPut x :: rest => x :: poolPuts rest
  | _ :: rest => poolPuts rest

/-- The number of `ReadMessage` calls. -/
def readCount {M C : Type} : List (Event M C) → Nat
  | [] => 0
  | Event.read :: rest => readCount rest + 1
  | _ :: rest => readCount rest

/-- The engine hands out exactly the segments `segs` from state `w` on, and
then reports that none remain, leaving the state `w1`. -/
def Yields {σ M C : Type} (E : Engine σ M C) (ctx : C) : List Segment → σ → σ → Prop
  | [], w, w1 => E.NextSegment w ctx = (none, w1)
  | s :: rest, w, w1 =>
    (E.NextSegment w ctx).1 = some s ∧ Yields E ctx rest (E.NextSegment w ctx).2 w1

/-- Every sequence of segments the engine hands out is finite. -/
def FiniteSegments {σ M C : Type} (E : Engine σ M C) : Prop :=
  ∀ (ctx : C) (w : σ), ∃ segs w1, Yields E ctx segs w w1

/-- The samples carried by the binary messages of a script, in arrival
order; the other messages carry none. -/
def binarySamples : List Inbound → List Sample
  | [] => []
  | msg :: inbox =>
    match msg.read with
    | ReadResult.binary message => pcmSamples message ++ binarySamples inbox
    | _ => binarySamples inbox

/-! ## A scripted engine for concrete runs -/

/-- State of the scripted engine: the outcomes of the coming `Process` calls
(success flag and the segments made available), the segments not yet handed
out, and the number of contexts created so far. -/
structure Scripted where
  results : List (Bool × List String)
  pending : List String
  contexts : Nat
  deriving DecidableEq

/-- A stand-in for the speech library whose answers are fixed in advance.  A
model handle is a flag telling whether contexts can be derived from it, a
context handle is a number. -/
def scriptedEngine : Engine Scripted Bool Nat where
  New w path := (if path = "" then none else some true, w)
  Close w _ := w
  NewContext w model :=
    if model then (some w.contexts, { w with contexts := w.contexts + 1 }) else (none, w)
  SetLanguage w _ _ := (true, w)
  Process w _ _ :=
    match w.results with
    | [] => (true, { w with pending := [] })
    | (ok, segs) :: rest => (ok, { w with results := rest, pending := segs })
  NextSegment w _ :=
    match w.pending with
    | [] => (none, w)
    | s :: rest => (some ⟨s⟩, { w with pending := rest })

/-- A binary message of `n` zero bytes. -/
def silence (n : Nat) : List Byte := List.replicate n 0

/-- A fresh session on the scripted engine: context 0 has been derived from a
sound model, the audio buffer is empty, and `results` are the outcomes of
the coming `Process` calls. -/
def scriptedSession (results : List (Bool × List String)) : Session Scripted Bool Nat :=
  ⟨⟨results, [], 1⟩, ⟨true, 0⟩, []⟩

/-- A session on the scripted engine whose model can no longer derive
contexts. -/
def staleSession : Session Scripted Bool Nat :=
  ⟨⟨[], [], 1⟩, ⟨false, 0⟩, []⟩

/-- The initial state of the scripted engine, with the outcomes of the coming
`Process` calls. -/
def scriptedStart (results : List (Bool × List String)) : Scripted :=
  ⟨results, [], 0⟩

/-! ## Lemmas on decoding -/

theorem chunkSamples_eq : chunkSamples = 32000 := by
  unfold chunkSamples truncToInt Seconds AudioChunkDuration Second SampleRate
  norm_num

theorem uint16_eq_add (lo hi : Byte) :
    lo.val ||| ((hi.val <<< 8) % 65536) = lo.val + 256 * hi.val := by
  have hlo : lo.val < 2 ^ 8 := lo.isLt
  have hhi : hi.val < 256 := hi.isLt
  have h1 : hi.val <<< 8 = 2 ^ 8 * hi.val := by rw [Nat.shiftLeft_eq, Nat.mul_comm]
  have h2 : (2 ^ 8 * hi.val) % 65536 = 2 ^ 8 * hi.val := Nat.mod_eq_of_lt (by omega)
  rw [h1, h2, Nat.lor_comm, ← Nat.mul_add_lt_is_or hlo]
  omega

theorem int16_uint16 (lo hi : Byte) :
    int16 (lo.val ||| ((hi.val <<< 8) % 65536)) = signed16 lo hi := by
  have hlo : lo.val < 256 := lo.isLt
  have hhi : hi.val < 256 := hi.isLt
  rw [uint16_eq_add]
  unfold int16 signed16
  have hm : (lo.val + 256 * hi.val) % 65536 = lo.val + 256 * hi.val := Nat.mod_eq_of_lt (by omega)
  rw [hm]
  by_cases h : hi.val < 128
  · rw [if_pos (by omega), if_pos h]; push_cast; ring
  · rw [if_neg (by omega), if_neg h]; push_cast; ring

theorem pcmSamples_length (m : List Byte) : (pcmSamples m).length = m.length / 2 := by
  induction m using pcmSamples.induct with
  | case1 lo hi rest ih =>
    simp only [pcmSamples, List.length_cons, ih]
    omega
  | case2 m h =>
    match m, h with
    | [], _ => simp [pcmSamples]
    | [_], _ => simp [pcmSamples]
    | lo :: hi :: rest, h => exact absurd rfl (h lo hi rest)

theorem decodeLoop_eq (message : List Byte) :
    ∀ (remaining i : Nat) (audioBuffer : List Sample),
      (i + remaining) * 2 ≤ message.length →
      decodeLoop message remaining i audioBuffer
        = some (audioBuffer ++ (pcmSamples (message.drop (i * 2))).take remaining) := by
  intro remaining
  induction remaining with
  | zero => intro i audioBuffer _; simp [decodeLoop]
  | succ r ih =>
    intro i audioBuffer hlen
    have hslice : goSlice message (i * 2) ((i + 1) * 2)
        = some ((message.drop (i * 2)).take 2) := by
      unfold goSlice
      rw [if_pos ⟨by omega, by omega⟩]
      congr 2
      omega
    have hdl : (message.drop (i * 2)).length = message.length - i * 2 := List.length_drop _ _
    have hdd : (message.drop (i * 2)).drop 2 = message.drop ((i + 1) * 2) := by
      rw [List.drop_drop]
      congr 1
      omega
    rcases hd : message.drop (i * 2) with _ | ⟨lo, _ | ⟨hi, rest⟩⟩
    · rw [hd] at hdl; simp at hdl; omega
    · rw [hd] at hdl; simp at hdl; omega
    · rw [hd] at hdd
      simp only [List.drop_succ_cons, List.drop_zero] at hdd
      have hrec := ih (i + 1) (audioBuffer ++ [toSample (lo.val ||| ((hi.val <<< 8) % 65536))])
        (by omega)
      subst hdd
      simp only [toSample, int16_uint16] at hrec
      simp only [decodeLoop, hslice, hd, List.take_succ_cons, List.take_zero,
        littleEndianUint16, hrec, pcmSamples, toSample, int16_uint16,
        List.append_assoc, List.singleton_append]

/-- Decoding never fails and appends the samples of the message. -/
theorem decode_eq (message : List Byte) (audioBuffer : List Sample) :
    decode message audioBuffer = some (audioBuffer ++ pcmSamples message) := by
  unfold decode
  have h := decodeLoop_eq message (message.length / (BitsPerSample / 8)) 0 audioBuffer
    (by simp only [BitsPerSample]; omega)
  rw [h]
  simp only [Nat.zero_mul, List.drop_zero, BitsPerSample]
  rw [List.take_of_length_le (by rw [pcmSamples_length])]

theorem pcmSamples_append_odd (m : List Byte) (last : Byte) (h : m.length % 2 = 0) :
    pcmSamples (m ++ [last]) = pcmSamples m := by
  induction m using pcmSamples.induct with
  | case1 lo hi rest ih =>
    have hr : rest.length % 2 = 0 := by simp only [List.length_cons] at h; omega
    show pcmSamples (lo :: hi :: (rest ++ [last])) = pcmSamples (lo :: hi :: rest)
    simp only [pcmSamples, ih hr]
  | case2 m hne =>
    match m, hne, h with
    | [], _, _ => simp [pcmSamples]
    | [_], _, h => simp at h
    | lo :: hi :: rest, hne, _ => exact absurd rfl (hne lo hi rest)

theorem pcmSamples_getElem? (m : List Byte) :
    ∀ (i : Nat) (lo hi : Byte), m[2 * i]? = some lo → m[2 * i + 1]? = some hi →
      (pcmSamples m)[i]? = some (((signed16 lo hi : Int) : ℚ) / 32768) := by
  induction m using pcmSamples.induct with
  | case1 lo0 hi0 rest ih =>
    intro i lo hi h0 h1
    cases i with
    | zero =>
      simp only [Nat.mul_zero, List.getElem?_cons_zero, Option.some.injEq] at h0
      simp only [Nat.mul_zero, Nat.zero_add, List.getElem?_cons_succ, List.getElem?_cons_zero,
        Option.some.injEq] at h1
      subst h0 h1
      simp [pcmSamples]
    | succ k =>
      have e0 : 2 * (k + 1) = (2 * k + 1) + 1 := by omega
      have e1 : 2 * (k + 1) + 1 = (2 * k + 1 + 1) + 1 := by omega
      rw [e0] at h0
      rw [e1] at h1
      simp only [List.getElem?_cons_succ] at h0 h1
      simp only [pcmSamples, List.getElem?_cons_succ]
      exact ih k lo hi h0 h1
  | case2 m hne =>
    intro i lo hi h0 h1
    match m, hne, h0, h1 with
    | [], _, h0, _ => simp at h0
    | [_], _, _, h1 => simp at h1
    | a :: b :: rest, hne, _, _ => exact absurd rfl (hne a b rest)

theorem signed16_bounds (lo hi : Byte) : -32768 ≤ signed16 lo hi ∧ signed16 lo hi < 32768 := by
  have hlo : lo.val < 256 := lo.isLt
  have hhi : hi.val < 256 := hi.isLt
  unfold signed16
  split <;> constructor <;> omega

theorem signed16_eq_min (lo hi : Byte) : signed16 lo hi = -32768 ↔ lo = 0 ∧ hi = 128 := by
  have hlo : lo.val < 256 := lo.isLt
  have hhi : hi.val < 256 := hi.isLt
  unfold signed16
  constructor
  · intro h
    have : lo.val = 0 ∧ hi.val = 128 := by
      split at h <;> omega
    exact ⟨Fin.ext this.1, Fin.ext this.2⟩
  · rintro ⟨rfl, rfl⟩
    decide

/-- The sample decoded from the bytes at 2i and 2i+1, its place in the buffer
and its range. -/
theorem sample_of_bytes (message : List Byte) (audioBuffer : List Sample) (i : Nat)
    (lo hi : Byte) (hlo : message[2 * i]? = some lo) (hhi : message[2 * i + 1]? = some hi) :
    (∃ out, decode message audioBuffer = some out
        ∧ out[audioBuffer.length + i]? = some (((signed16 lo hi : Int) : ℚ) / 32768))
    ∧ (-1 : ℚ) ≤ ((signed16 lo hi : Int) : ℚ) / 32768
    ∧ ((signed16 lo hi : Int) : ℚ) / 32768 < 1
    ∧ (((signed16 lo hi : Int) : ℚ) / 32768 = -1 ↔ lo = 0 ∧ hi = 128) := by
  have hb := signed16_bounds lo hi
  have hlen : 2 * i + 1 < message.length := by
    rcases List.getElem?_eq_some_iff.mp hhi with ⟨h, _⟩
    exact h
  have h1 : ((-32768 : Int) : ℚ) ≤ ((signed16 lo hi : Int) : ℚ) := Int.cast_le.mpr hb.1
  have h2 : ((signed16 lo hi : Int) : ℚ) < ((32768 : Int) : ℚ) := Int.cast_lt.mpr hb.2
  push_cast at h1 h2
  refine ⟨⟨audioBuffer ++ pcmSamples message, decode_eq _ _, ?_⟩, ?_, ?_, ?_⟩
  · rw [List.getElem?_append_right (by omega)]
    simp only [Nat.add_sub_cancel_left]
    exact pcmSamples_getElem? message i lo hi hlo hhi
  · rw [le_div_iff₀ (by norm_num)]
    linarith
  · rw [div_lt_iff₀ (by norm_num)]
    linarith
  · rw [← signed16_eq_min, div_eq_iff (by norm_num)]
    constructor
    · intro h
      have h3 : ((signed16 lo hi : Int) : ℚ) = ((-32768 : Int) : ℚ) := by
        rw [h]; norm_num
      exact Int.cast_injective h3
    · intro h
      rw [h]; norm_num

/-! ## Lemmas on traces -/

section Traces

variable {σ M C : Type}

theorem textWrites_append (a b : List (Event M C)) :
    textWrites (a ++ b) = textWrites a ++ textWrites b := by
  induction a with
  | nil => rfl
  | cons e a ih => cases e <;> simp [textWrites, ih]

theorem processCalls_append (a b : List (Event M C)) :
    processCalls (a ++ b) = processCalls a ++ processCalls b := by
  induction a with
  | nil => rfl
  | cons e a ih => cases e <;> simp [processCalls, ih]

theorem engineContexts_append (a b : List (Event M C)) :
    engineContexts (a ++ b) = engineContexts a ++ engineContexts b := by
  induction a with
  | nil => rfl
  | cons e a ih => cases e <;> simp [engineContexts, ih]

theorem poolPuts_append (a b : List (Event M C)) :
    poolPuts (a ++ b) = poolPuts a ++ poolPuts b := by
  induction a with
  | nil => rfl
  | cons e a ih => cases e <;> simp [poolPuts, ih]

theorem readCount_append (a b : List (Event M C)) :
    readCount (a ++ b) = readCount a + readCount b := by
  induction a with
  | nil => simp [readCount]
  | cons e a ih =>
    rw [List.cons_append]
    cases e
    all_goals simp only [readCount, ih]
    omega

theorem mem_process_iff (t : List (Event M C)) :
    (∃ ctx data, Event.process ctx data ∈ t) ↔ processCalls t ≠ [] := by
  induction t with
  | nil => simp [processCalls]
  | cons e t ih =>
    cases e
    case process ctx data =>
      simp only [processCalls, ne_eq, reduceCtorEq, not_false_eq_true, iff_true]
      exact ⟨ctx, data, List.mem_cons_self _ _⟩
    all_goals simp [processCalls, ← ih]

/-! ## Lemmas on the segment loop -/

theorem drain_textWrites (E : Engine σ M C) (ctx : C) :
    ∀ (fuel : Nat) (w : σ) (acc : List String),
      textWrites (drainSegments E ctx fuel w acc).1 = [] := by
  intro fuel
  induction fuel with
  | zero => intro w acc; rfl
  | succ n ih =>
    intro w acc
    unfold drainSegments
    rcases h : E.NextSegment w ctx with ⟨_ | seg, w1⟩
    · simp [textWrites]
    · simp [textWrites, ih]

theorem drain_processCalls (E : Engine σ M C) (ctx : C) :
    ∀ (fuel : Nat) (w : σ) (acc : List String),
      processCalls (drainSegments E ctx fuel w acc).1 = [] := by
  intro fuel
  induction fuel with
  | zero => intro w acc; rfl
  | succ n ih =>
    intro w acc
    unfold drainSegments
    rcases h : E.NextSegment w ctx with ⟨_ | seg, w1⟩
    · simp [processCalls]
    · simp [processCalls, ih]

theorem drain_poolPuts (E : Engine σ M C) (ctx : C) :
    ∀ (fuel : Nat) (w : σ) (acc : List String),
      poolPuts (drainSegments E ctx fuel w acc).1 = [] := by
  intro fuel
  induction fuel with
  | zero => intro w acc; rfl
  | succ n ih =>
    intro w acc
    unfold drainSegments
    rcases h : E.NextSegment w ctx with ⟨_ | seg, w1⟩
    · simp [poolPuts]
    · simp [poolPuts, ih]

theorem drain_engineContexts (E : Engine σ M C) (ctx : C) :
    ∀ (fuel : Nat) (w : σ) (acc : List String),
      ∀ c ∈ engineContexts (drainSegments E ctx fuel w acc).1, c = ctx := by
  intro fuel
  induction fuel with
  | zero => intro w acc c hc; simp [drainSegments, engineContexts] at hc
  | succ n ih =>
    intro w acc c hc
    unfold drainSegments at hc
    rcases h : E.NextSegment w ctx with ⟨_ | seg, w1⟩
    · rw [h] at hc
      simpa [engineContexts] using hc
    · rw [h] at hc
      simp only [engineContexts, List.mem_cons] at hc
      rcases hc with rfl | hc
      · rfl
      · exact ih _ _ c hc

/-- When the engine hands out `segs` and then stops, the segment loop finishes
with them as soon as the fuel exceeds their number. -/
theorem drain_of_yields (E : Engine σ M C) (ctx : C) :
    ∀ (segs : List Segment) (w w1 : σ) (fuel : Nat) (acc : List String),
      Yields E ctx segs w w1 → segs.length < fuel →
      (drainSegments E ctx fuel w acc).2 = (w1, some (acc ++ segs.map Segment.Text)) := by
  intro segs
  induction segs with
  | nil =>
    intro w w1 fuel acc hy hf
    cases fuel with
    | zero => simp at hf
    | succ n =>
      unfold Yields at hy
      simp [drainSegments, hy]
  | cons s rest ih =>
    intro w w1 fuel acc hy hf
    cases fuel with
    | zero => simp at hf
    | succ n =>
      obtain ⟨h1, h2⟩ := hy
      have hns : E.NextSegment w ctx = (some s, (E.NextSegment w ctx).2) := by
        rw [← h1]
      have hrec := ih (E.NextSegment w ctx).2 w1 n (acc ++ [s.Text]) h2
        (by simp only [List.length_cons] at hf; omega)
      unfold drainSegments
      rw [hns]
      simp only [hrec, List.map_cons, List.append_assoc, List.singleton_append]

/-- A segment loop that finishes within some fuel finishes with the same
result within any larger fuel. -/
theorem drain_mono (E : Engine σ M C) (ctx : C) :
    ∀ (fuel : Nat) (w : σ) (acc : List String) (k : Nat),
      (drainSegments E ctx fuel w acc).2.2 ≠ none →
      drainSegments E ctx (fuel + k) w acc = drainSegments E ctx fuel w acc := by
  intro fuel
  induction fuel with
  | zero => intro w acc k h; simp [drainSegments] at h
  | succ n ih =>
    intro w acc k h
    have e : n + 1 + k = (n + k) + 1 := by omega
    rw [e]
    unfold drainSegments at h ⊢
    rcases hns : E.NextSegment w ctx with ⟨_ | seg, w1⟩
    · rfl
    · rw [hns] at h
      simp only at h ⊢
      rw [ih w1 _ k h]

end Traces

/-! ## Lemmas on one iteration of the read loop -/

section Steps

variable {σ M C : Type}

theorem threshold_iff (audioBuffer : List Sample) (m : List Byte) :
    chunkSamples ≤ ((audioBuffer ++ pcmSamples m).length : Int)
      ↔ 32000 ≤ audioBuffer.length + m.length / 2 := by
  rw [chunkSamples_eq, List.length_append, pcmSamples_length]
  omega

/-- Below the threshold a binary message is only accumulated. -/
theorem handleBinary_below (E : Engine σ M C) (fuel : Nat) (st : Session σ M C)
    (m : List Byte) (we : Bool) (h : st.audioBuffer.length + m.length / 2 < 32000) :
    handleBinary E fuel st m we
      = ⟨[], ⟨st.engine, st.whisperCtx, st.audioBuffer ++ pcmSamples m⟩, Flow.next⟩ := by
  unfold handleBinary
  rw [decode_eq]
  simp only
  rw [if_neg (by rw [threshold_iff]; omega)]

/-- At the threshold the window is submitted and the segments are drained. -/
theorem handleBinary_reached (E : Engine σ M C) (fuel : Nat) (st : Session σ M C)
    (m : List Byte) (we : Bool) (h : 32000 ≤ st.audioBuffer.length + m.length / 2) :
    handleBinary E fuel st m we =
      (let audioBuffer := st.audioBuffer ++ pcmSamples m
       let ctx := st.whisperCtx.Context
       let p := E.Process st.engine ctx audioBuffer
       let t1 : List (Event M C) :=
         if p.1 then [Event.process ctx audioBuffer]
         else [Event.process ctx audioBuffer,
               Event.writeText "Error: Server unable to process audio"]
       let d := drainSegments E ctx fuel p.2 []
       match d.2.2 with
       | none => ⟨t1 ++ d.1, ⟨d.2.1, st.whisperCtx, audioBuffer⟩, Flow.stuck⟩
       | some segments =>
         if 0 < segments.length then
           if we then
             ⟨t1 ++ d.1 ++ [Event.writeText (combineText segments)],
               ⟨d.2.1, st.whisperCtx, audioBuffer⟩, Flow.leave⟩
           else
             ⟨t1 ++ d.1 ++ [Event.writeText (combineText segments)],
               ⟨d.2.1, st.whisperCtx, []⟩, Flow.next⟩
         else
           ⟨t1 ++ d.1, ⟨d.2.1, st.whisperCtx, []⟩, Flow.next⟩) := by
  unfold handleBinary
  rw [decode_eq]
  simp only
  rw [if_pos (by rw [threshold_iff]; omega)]

theorem handleBinary_processCalls (E : Engine σ M C) (fuel : Nat) (st : Session σ M C)
    (m : List Byte) (we : Bool) :
    processCalls (handleBinary E fuel st m we).trace
      = if 32000 ≤ st.audioBuffer.length + m.length / 2
        then [(st.whisperCtx.Context, st.audioBuffer ++ pcmSamples m)] else [] := by
  by_cases h : 32000 ≤ st.audioBuffer.length + m.length / 2
  · rw [if_pos h, handleBinary_reached E fuel st m we h]
    simp only
    split
    · split <;> simp [processCalls_append, drain_processCalls, processCalls]
    · split
      · split <;> split <;>
          simp [processCalls_append, drain_processCalls, processCalls]
      · split <;> simp [processCalls_append, drain_processCalls, processCalls]
  · rw [if_neg h, handleBinary_below E fuel st m we (by omega)]
    rfl

theorem handleBinary_cleared (E : Engine σ M C) (fuel : Nat) (st : Session σ M C)
    (m : List Byte) (we : Bool) (h : 32000 ≤ st.audioBuffer.length + m.length / 2)
    (hflow : (handleBinary E fuel st m we).flow = Flow.next) :
    (handleBinary E fuel st m we).session.audioBuffer = [] := by
  rw [handleBinary_reached E fuel st m we h] at hflow ⊢
  dsimp only at hflow ⊢
  generalize drainSegments E st.whisperCtx.Context fuel
      (E.Process st.engine st.whisperCtx.Context (st.audioBuffer ++ pcmSamples m)).2 [] = d
    at hflow ⊢
  obtain ⟨tr, w, _ | segments⟩ := d
  · simp at hflow
  · dsimp only at hflow ⊢
    by_cases hs : 0 < segments.length
    · rw [if_pos hs] at hflow ⊢
      cases we
      · simp
      · simp at hflow
    · rw [if_neg hs]

/-- The result of a binary message that completes a window, when the engine
hands out `segs` and then stops and the fuel exceeds their number. -/
theorem handleBinary_of_yields (E : Engine σ M C) (fuel : Nat) (st : Session σ M C)
    (m : List Byte) (we : Bool) (segs : List Segment) (w1 : σ)
    (h : 32000 ≤ st.audioBuffer.length + m.length / 2)
    (hy : Yields E st.whisperCtx.Context segs
      (E.Process st.engine st.whisperCtx.Context (st.audioBuffer ++ pcmSamples m)).2 w1)
    (hfuel : segs.length < fuel) :
    (handleBinary E fuel st m we).flow = (if segs ≠ [] ∧ we = true then Flow.leave else Flow.next)
    ∧ (handleBinary E fuel st m we).session.engine = w1
    ∧ (handleBinary E fuel st m we).session.whisperCtx = st.whisperCtx
    ∧ textWrites (handleBinary E fuel st m we).trace
        = (if (E.Process st.engine st.whisperCtx.Context (st.audioBuffer ++ pcmSamples m)).1
            then [] else ["Error: Server unable to process audio"])
          ++ (if segs = [] then [] else [combineText (segs.map Segment.Text)]) := by
  have hd := drain_of_yields E st.whisperCtx.Context segs _ w1 fuel [] hy hfuel
  have hd1 : (drainSegments E st.whisperCtx.Context fuel
      (E.Process st.engine st.whisperCtx.Context (st.audioBuffer ++ pcmSamples m)).2 []).2.2
      = some (segs.map Segment.Text) := by rw [hd]; rfl
  have hd2 : (drainSegments E st.whisperCtx.Context fuel
      (E.Process st.engine st.whisperCtx.Context (st.audioBuffer ++ pcmSamples m)).2 []).2.1
      = w1 := by rw [hd]
  rw [handleBinary_reached E fuel st m we h]
  simp only
  rw [hd1]
  simp only [hd2, List.length_map]
  cases segs with
  | nil =>
    simp only [List.length_nil, Nat.lt_irrefl, if_false, ne_eq, not_true_eq_false, false_and,
      if_true, List.append_nil, textWrites_append, drain_textWrites, true_and]
    split <;> simp [textWrites]
  | cons s rest =>
    simp only [List.length_cons, Nat.zero_lt_succ, if_true, ne_eq, reduceCtorEq,
      not_false_eq_true, true_and, if_false]
    cases we
    · simp only [Bool.false_eq_true, if_false, textWrites_append, drain_textWrites, true_and]
      split <;> simp [textWrites]
    · simp only [if_true, textWrites_append, drain_textWrites, true_and]
      split <;> simp [textWrites]

theorem combineText_eq_join (segments : List String) :
    combineText segments = String.join (segments.map fun s => s ++ " ") := by
  unfold combineText String.join
  rw [List.foldl_map]

/-- What every binary iteration satisfies, whatever the engine does: no
pool call, engine calls on the session context only, the pooled item
untouched, and no panic. -/
theorem handleBinary_frame (E : Engine σ M C) (fuel : Nat) (st : Session σ M C)
    (m : List Byte) (we : Bool) :
    poolPuts (handleBinary E fuel st m we).trace = []
    ∧ (∀ c ∈ engineContexts (handleBinary E fuel st m we).trace, c = st.whisperCtx.Context)
    ∧ (handleBinary E fuel st m we).session.whisperCtx = st.whisperCtx
    ∧ (handleBinary E fuel st m we).flow ≠ Flow.panic := by
  by_cases h : 32000 ≤ st.audioBuffer.length + m.length / 2
  · rw [handleBinary_reached E fuel st m we h]
    dsimp only
    have hp := drain_poolPuts E st.whisperCtx.Context fuel
      (E.Process st.engine st.whisperCtx.Context (st.audioBuffer ++ pcmSamples m)).2 []
    have hc := drain_engineContexts E st.whisperCtx.Context fuel
      (E.Process st.engine st.whisperCtx.Context (st.audioBuffer ++ pcmSamples m)).2 []
    generalize drainSegments E st.whisperCtx.Context fuel
      (E.Process st.engine st.whisperCtx.Context (st.audioBuffer ++ pcmSamples m)).2 [] = d
      at hp hc ⊢
    obtain ⟨tr, w, o⟩ := d
    dsimp only at hp hc ⊢
    have hc2 : ∀ c, c ∈ engineContexts tr → c = st.whisperCtx.Context := hc
    cases o with
    | none =>
      dsimp only
      refine ⟨?_, ?_, rfl, by simp⟩
      · rw [poolPuts_append, hp]
        split <;> rfl
      · intro c hcm
        rw [engineContexts_append] at hcm
        rcases List.mem_append.mp hcm with h1 | h1
        · split at h1 <;> simpa [engineContexts] using h1
        · exact hc2 c h1
    | some segments =>
      dsimp only
      by_cases hs : 0 < segments.length
      · rw [if_pos hs]
        cases we
        · rw [if_neg Bool.false_ne_true]
          refine ⟨?_, ?_, rfl, by simp⟩
          · rw [poolPuts_append, poolPuts_append, hp]
            split <;> rfl
          · intro c hcm
            rw [engineContexts_append, engineContexts_append] at hcm
            rcases List.mem_append.mp hcm with h1 | h1
            · rcases List.mem_append.mp h1 with h2 | h2
              · split at h2 <;> simpa [engineContexts] using h2
              · exact hc2 c h2
            · simp [engineContexts] at h1
        · rw [if_pos rfl]
          refine ⟨?_, ?_, rfl, by simp⟩
          · rw [poolPuts_append, poolPuts_append, hp]
            split <;> rfl
          · intro c hcm
            rw [engineContexts_append, engineContexts_append] at hcm
            rcases List.mem_append.mp hcm with h1 | h1
            · rcases List.mem_append.mp h1 with h2 | h2
              · split at h2 <;> simpa [engineContexts] using h2
              · exact hc2 c h2
            · simp [engineContexts] at h1
      · rw [if_neg hs]
        refine ⟨?_, ?_, rfl, by simp⟩
        · rw [poolPuts_append, hp]
          split <;> rfl
        · intro c hcm
          rw [engineContexts_append] at hcm
          rcases List.mem_append.mp hcm with h1 | h1
          · split at h1 <;> simpa [engineContexts] using h1
          · exact hc2 c h1
  · rw [handleBinary_below E fuel st m we (by omega)]
    exact ⟨rfl, by simp [engineContexts], rfl, by simp⟩

/-- A binary iteration that is not stuck gives the same result under any
larger fuel. -/
theorem handleBinary_mono (E : Engine σ M C) (fuel : Nat) (st : Session σ M C)
    (m : List Byte) (we : Bool) (k : Nat)
    (h : (handleBinary E fuel st m we).flow ≠ Flow.stuck) :
    handleBinary E (fuel + k) st m we = handleBinary E fuel st m we := by
  by_cases hr : 32000 ≤ st.audioBuffer.length + m.length / 2
  · have hd : (drainSegments E st.whisperCtx.Context fuel
        (E.Process st.engine st.whisperCtx.Context (st.audioBuffer ++ pcmSamples m)).2 []).2.2
        ≠ none := by
      intro hn
      apply h
      rw [handleBinary_reached E fuel st m we hr]
      dsimp only
      rw [hn]
    rw [handleBinary_reached E fuel st m we hr, handleBinary_reached E (fuel + k) st m we hr]
    dsimp only
    rw [drain_mono E st.whisperCtx.Context fuel _ [] k hd]
  · rw [handleBinary_below E fuel st m we (by omega),
      handleBinary_below E (fuel + k) st m we (by omega)]

theorem handleText_frame (E : Engine σ M C) (st : Session σ M C) (cmd : String) :
    poolPuts (handleText E st cmd).trace = []
    ∧ engineContexts (handleText E st cmd).trace = []
    ∧ processCalls (handleText E st cmd).trace = []
    ∧ (handleText E st cmd).session.whisperCtx.Model = st.whisperCtx.Model
    ∧ (handleText E st cmd).session.audioBuffer = st.audioBuffer
    ∧ (handleText E st cmd).flow = Flow.next
    ∧ (textWrites (handleText E st cmd).trace).length = 1 := by
  unfold handleText
  by_cases h : cmd = "reset"
  · rw [if_pos h]
    rcases hn : E.NewContext st.engine st.whisperCtx.Model with ⟨_ | newCtx, w1⟩ <;>
      simp [poolPuts, engineContexts, processCalls, textWrites]
  · rw [if_neg h]
    simp [poolPuts, engineContexts, processCalls, textWrites]

theorem handleMessage_frame (E : Engine σ M C) (fuel : Nat) (st : Session σ M C)
    (msg : Inbound) :
    poolPuts (handleMessage E fuel st msg).trace = []
    ∧ (∀ c ∈ engineContexts (handleMessage E fuel st msg).trace, c = st.whisperCtx.Context)
    ∧ (handleMessage E fuel st msg).session.whisperCtx.Model = st.whisperCtx.Model
    ∧ (handleMessage E fuel st msg).flow ≠ Flow.panic
    ∧ (msg.read ≠ ReadResult.text "reset" →
        (handleMessage E fuel st msg).session.whisperCtx = st.whisperCtx) := by
  obtain ⟨rd, we⟩ := msg
  cases rd with
  | err => exact ⟨rfl, by simp [handleMessage, engineContexts], rfl, by simp [handleMessage],
      fun _ => rfl⟩
  | binary message =>
    have hf := handleBinary_frame E fuel st message we
    exact ⟨hf.1, hf.2.1, by rw [show handleMessage E fuel st ⟨ReadResult.binary message, we⟩
      = handleBinary E fuel st message we from rfl, hf.2.2.1], hf.2.2.2, fun _ => hf.2.2.1⟩
  | text cmd =>
    have hf := handleText_frame E st cmd
    refine ⟨hf.1, ?_, hf.2.2.2.1, ?_, ?_⟩
    · intro c hc
      rw [show handleMessage E fuel st ⟨ReadResult.text cmd, we⟩ = handleText E st cmd from rfl,
        hf.2.1] at hc
      simp at hc
    · rw [show handleMessage E fuel st ⟨ReadResult.text cmd, we⟩ = handleText E st cmd from rfl,
        hf.2.2.2.2.2.1]
      simp
    · intro hne
      have hcmd : cmd ≠ "reset" := fun h => hne (by rw [h])
      show (handleText E st cmd).session.whisperCtx = st.whisperCtx
      unfold handleText
      rw [if_neg hcmd]
  | other t message =>
    exact ⟨rfl, by simp [handleMessage, engineContexts], rfl, by simp [handleMessage],
      fun _ => rfl⟩

theorem handleMessage_mono (E : Engine σ M C) (fuel : Nat) (st : Session σ M C)
    (msg : Inbound) (k : Nat) (h : (handleMessage E fuel st msg).flow ≠ Flow.stuck) :
    handleMessage E (fuel + k) st msg = handleMessage E fuel st msg := by
  obtain ⟨rd, we⟩ := msg
  cases rd with
  | binary message => exact handleBinary_mono E fuel st message we k h
  | err => rfl
  | text cmd => rfl
  | other t message => rfl

/-- When every sequence of segments is finite, each iteration finishes within
some fuel. -/
theorem handleMessage_finishes (E : Engine σ M C) (hfin : FiniteSegments E)
    (st : Session σ M C) (msg : Inbound) :
    ∃ n, (handleMessage E n st msg).flow ≠ Flow.stuck := by
  obtain ⟨rd, we⟩ := msg
  cases rd with
  | binary message =>
    by_cases hr : 32000 ≤ st.audioBuffer.length + message.length / 2
    · obtain ⟨segs, w1, hy⟩ := hfin st.whisperCtx.Context
        (E.Process st.engine st.whisperCtx.Context (st.audioBuffer ++ pcmSamples message)).2
      refine ⟨segs.length + 1, ?_⟩
      have hf := (handleBinary_of_yields E (segs.length + 1) st message we segs w1 hr hy
        (Nat.lt_succ_self _)).1
      show (handleBinary E (segs.length + 1) st message we).flow ≠ Flow.stuck
      rw [hf]
      split <;> simp
    · refine ⟨0, ?_⟩
      show (handleBinary E 0 st message we).flow ≠ Flow.stuck
      rw [handleBinary_below E 0 st message we (by omega)]
      simp
  | err => exact ⟨0, by simp [handleMessage]⟩
  | text cmd =>
    refine ⟨0, ?_⟩
    show (handleText E st cmd).flow ≠ Flow.stuck
    rw [(handleText_frame E st cmd).2.2.2.2.2.1]
    simp
  | other t message => exact ⟨0, by simp [handleMessage]⟩

end Steps

/-! ## Lemmas on the read loop -/

section Loop

variable {σ M C : Type}

theorem messageLoop_cons_next (E : Engine σ M C) (fuel : Nat) (msg : Inbound)
    (inbox : List Inbound) (st : Session σ M C)
    (h : (handleMessage E fuel st msg).flow = Flow.next) :
    messageLoop E fuel (msg :: inbox) st =
      ⟨Event.read :: ((handleMessage E fuel st msg).trace
          ++ (messageLoop E fuel inbox (handleMessage E fuel st msg).session).trace),
        (messageLoop E fuel inbox (handleMessage E fuel st msg).session).session,
        (messageLoop E fuel inbox (handleMessage E fuel st msg).session).flow⟩ := by
  simp only [messageLoop]
  rw [h]

theorem messageLoop_cons_stop (E : Engine σ M C) (fuel : Nat) (msg : Inbound)
    (inbox : List Inbound) (st : Session σ M C)
    (h : (handleMessage E fuel st msg).flow ≠ Flow.next) :
    messageLoop E fuel (msg :: inbox) st =
      ⟨Event.read :: (handleMessage E fuel st msg).trace,
        (handleMessage E fuel st msg).session, (handleMessage E fuel st msg).flow⟩ := by
  simp only [messageLoop]

/-- The read loop never touches the pool, never ends an iteration it did not
leave, never panics, keeps the model of the pooled item, and reads at least
once. -/
theorem messageLoop_frame (E : Engine σ M C) (fuel : Nat) :
    ∀ (inbox : List Inbound) (st : Session σ M C),
      poolPuts (messageLoop E fuel inbox st).trace = []
      ∧ (messageLoop E fuel inbox st).flow ≠ Flow.next
      ∧ (messageLoop E fuel inbox st).flow ≠ Flow.panic
      ∧ (messageLoop E fuel inbox st).session.whisperCtx.Model = st.whisperCtx.Model
      ∧ 1 ≤ readCount (messageLoop E fuel inbox st).trace := by
  intro inbox
  induction inbox with
  | nil =>
    intro st
    simp [messageLoop, poolPuts, readCount]
  | cons msg inbox ih =>
    intro st
    have hs := handleMessage_frame E fuel st msg
    by_cases hf : (handleMessage E fuel st msg).flow = Flow.next
    · rw [messageLoop_cons_next E fuel msg inbox st hf]
      have hr := ih (handleMessage E fuel st msg).session
      refine ⟨?_, hr.2.1, hr.2.2.1, ?_, ?_⟩
      · show poolPuts (Event.read :: _) = []
        simp only [poolPuts, poolPuts_append, hs.1, hr.1, List.append_nil]
      · show (messageLoop E fuel inbox (handleMessage E fuel st msg).session).session.whisperCtx.Model
          = _
        rw [hr.2.2.2.1, hs.2.2.1]
      · show 1 ≤ readCount (Event.read :: _)
        simp only [readCount]
        omega
    · rw [messageLoop_cons_stop E fuel msg inbox st hf]
      refine ⟨?_, hf, hs.2.2.2.1, hs.2.2.1, ?_⟩
      · show poolPuts (Event.read :: _) = []
        simp only [poolPuts, hs.1]
      · show 1 ≤ readCount (Event.read :: _)
        simp only [readCount]
        omega

/-- As long as no reset command arrives, every engine call of the read loop
is made on the context the session started with. -/
theorem messageLoop_contexts (E : Engine σ M C) (fuel : Nat) :
    ∀ (inbox : List Inbound) (st : Session σ M C),
      (∀ msg ∈ inbox, msg.read ≠ ReadResult.text "reset") →
      ∀ c ∈ engineContexts (messageLoop E fuel inbox st).trace, c = st.whisperCtx.Context := by
  intro inbox
  induction inbox with
  | nil =>
    intro st _ c hc
    simp [messageLoop, engineContexts] at hc
  | cons msg inbox ih =>
    intro st hno c hc
    have hs := handleMessage_frame E fuel st msg
    have hkeep := hs.2.2.2.2 (hno msg (List.mem_cons_self _ _))
    by_cases hf : (handleMessage E fuel st msg).flow = Flow.next
    · rw [messageLoop_cons_next E fuel msg inbox st hf] at hc
      have hc2 : c ∈ engineContexts ((handleMessage E fuel st msg).trace
          ++ (messageLoop E fuel inbox (handleMessage E fuel st msg).session).trace) := hc
      rw [engineContexts_append] at hc2
      rcases List.mem_append.mp hc2 with h1 | h1
      · exact hs.2.1 c h1
      · have := ih (handleMessage E fuel st msg).session
          (fun x hx => hno x (List.mem_cons_of_mem _ hx)) c h1
        rw [this, hkeep]
    · rw [messageLoop_cons_stop E fuel msg inbox st hf] at hc
      exact hs.2.1 c hc

/-- When every sequence of segments is finite, the read loop comes to its end
on every finite script, for all fuel from some bound on. -/
theorem messageLoop_finishes (E : Engine σ M C) (hfin : FiniteSegments E) :
    ∀ (inbox : List Inbound) (st : Session σ M C),
      ∃ n, ∀ k, (messageLoop E (n + k) inbox st).flow = Flow.leave := by
  intro inbox
  induction inbox with
  | nil => intro st; exact ⟨0, fun _ => rfl⟩
  | cons msg inbox ih =>
    intro st
    obtain ⟨n1, h1⟩ := handleMessage_finishes E hfin st msg
    obtain ⟨n2, h2⟩ := ih (handleMessage E n1 st msg).session
    refine ⟨n1 + n2, fun k => ?_⟩
    have hstep : handleMessage E (n1 + n2 + k) st msg = handleMessage E n1 st msg := by
      rw [Nat.add_assoc]
      exact handleMessage_mono E n1 st msg (n2 + k) h1
    by_cases hf : (handleMessage E n1 st msg).flow = Flow.next
    · rw [messageLoop_cons_next E _ msg inbox st (by rw [hstep]; exact hf), hstep]
      have e : n1 + n2 + k = n2 + (n1 + k) := by omega
      show (messageLoop E (n1 + n2 + k) inbox (handleMessage E n1 st msg).session).flow = _
      rw [e]
      exact h2 (n1 + k)
    · rw [messageLoop_cons_stop E _ msg inbox st (by rw [hstep]; exact hf), hstep]
      show (handleMessage E n1 st msg).flow = Flow.leave
      have hp := (handleMessage_frame E n1 st msg).2.2.2.1
      cases hfl : (handleMessage E n1 st msg).flow with
      | next => exact absurd hfl hf
      | leave => rfl
      | stuck => exact absurd hfl h1
      | panic => exact absurd hfl hp

theorem binarySamples_cons (msg : Inbound) (inbox : List Inbound) :
    binarySamples (msg :: inbox) = binarySamples [msg] ++ binarySamples inbox := by
  obtain ⟨rd, we⟩ := msg
  cases rd <;> simp [binarySamples]

/-- A message that leaves the buffer below the threshold only extends it. -/
theorem handleMessage_accumulates (E : Engine σ M C) (fuel : Nat) (st : Session σ M C)
    (msg : Inbound) (hne : msg.read ≠ ReadResult.err)
    (hlow : st.audioBuffer.length + (binarySamples [msg]).length < 32000) :
    (handleMessage E fuel st msg).flow = Flow.next
    ∧ (handleMessage E fuel st msg).session.audioBuffer = st.audioBuffer ++ binarySamples [msg]
    ∧ processCalls (handleMessage E fuel st msg).trace = [] := by
  obtain ⟨rd, we⟩ := msg
  cases rd with
  | err => exact absurd rfl hne
  | binary message =>
    have hl : st.audioBuffer.length + message.length / 2 < 32000 := by
      simpa [binarySamples, pcmSamples_length] using hlow
    show (handleBinary E fuel st message we).flow = _ ∧ (handleBinary E fuel st message we).session.audioBuffer = _
      ∧ processCalls (handleBinary E fuel st message we).trace = _
    rw [handleBinary_below E fuel st message we hl]
    simp [binarySamples, processCalls]
  | text cmd =>
    have hf := handleText_frame E st cmd
    exact ⟨hf.2.2.2.2.2.1, by
      show (handleText E st cmd).session.audioBuffer = _
      rw [hf.2.2.2.2.1]; simp [binarySamples], hf.2.2.1⟩
  | other t message =>
    exact ⟨rfl, by simp [handleMessage, binarySamples], rfl⟩

theorem messageLoop_processCalls_cons (E : Engine σ M C) (fuel : Nat) (msg : Inbound)
    (inbox : List Inbound) (st : Session σ M C)
    (h : (handleMessage E fuel st msg).flow = Flow.next) :
    processCalls (messageLoop E fuel (msg :: inbox) st).trace
      = processCalls (handleMessage E fuel st msg).trace
        ++ processCalls (messageLoop E fuel inbox (handleMessage E fuel st msg).session).trace := by
  rw [messageLoop_cons_next E fuel msg inbox st h]
  show processCalls (Event.read :: _) = _
  simp only [processCalls, processCalls_append]

/-- While the samples received stay below the threshold the buffer is the
concatenation of what the binary messages carried, and nothing is submitted. -/
theorem messageLoop_accumulates (E : Engine σ M C) (fuel : Nat) :
    ∀ (inbox : List Inbound) (st : Session σ M C),
      (∀ msg ∈ inbox, msg.read ≠ ReadResult.err) →
      st.audioBuffer.length + (binarySamples inbox).length < 32000 →
      (messageLoop E fuel inbox st).session.audioBuffer = st.audioBuffer ++ binarySamples inbox
      ∧ processCalls (messageLoop E fuel inbox st).trace = []
      ∧ (messageLoop E fuel inbox st).flow = Flow.leave := by
  intro inbox
  induction inbox with
  | nil => intro st _ _; simp [messageLoop, binarySamples, processCalls]
  | cons msg inbox ih =>
    intro st hne hlow
    rw [binarySamples_cons, List.length_append] at hlow
    have hs := handleMessage_accumulates E fuel st msg (hne msg (List.mem_cons_self _ _))
      (by omega)
    have hr := ih (handleMessage E fuel st msg).session
      (fun x hx => hne x (List.mem_cons_of_mem _ hx))
      (by rw [hs.2.1, List.length_append]; omega)
    refine ⟨?_, ?_, ?_⟩
    · rw [messageLoop_cons_next E fuel msg inbox st hs.1]
      show (messageLoop E fuel inbox (handleMessage E fuel st msg).session).session.audioBuffer = _
      rw [hr.1, hs.2.1, binarySamples_cons msg inbox, List.append_assoc]
    · rw [messageLoop_processCalls_cons E fuel msg inbox st hs.1, hs.2.2, hr.2.1]
      rfl
    · rw [messageLoop_cons_next E fuel msg inbox st hs.1]
      exact hr.2.2

/-- The binary message that takes the samples received to the threshold
submits all of them, as one window. -/
theorem messageLoop_submits (E : Engine σ M C) (fuel : Nat) (m : List Byte) (we : Bool) :
    ∀ (inbox : List Inbound) (st : Session σ M C),
      (∀ msg ∈ inbox, msg.read ≠ ReadResult.err) →
      st.audioBuffer.length + (binarySamples inbox).length < 32000 →
      32000 ≤ st.audioBuffer.length + (binarySamples inbox).length + m.length / 2 →
      ∃ c, processCalls (messageLoop E fuel (inbox ++ [⟨ReadResult.binary m, we⟩]) st).trace
        = [(c, st.audioBuffer ++ binarySamples inbox ++ pcmSamples m)] := by
  intro inbox
  induction inbox with
  | nil =>
    intro st _ _ hreach
    simp only [binarySamples, List.length_nil, Nat.add_zero] at hreach
    refine ⟨st.whisperCtx.Context, ?_⟩
    have hp := handleBinary_processCalls E fuel st m we
    rw [if_pos hreach] at hp
    have hm : handleMessage E fuel st ⟨ReadResult.binary m, we⟩ = handleBinary E fuel st m we :=
      rfl
    simp only [List.nil_append, binarySamples, List.append_nil]
    by_cases hf : (handleMessage E fuel st ⟨ReadResult.binary m, we⟩).flow = Flow.next
    · rw [messageLoop_processCalls_cons E fuel _ [] st hf, hm, hp]
      rfl
    · rw [messageLoop_cons_stop E fuel _ [] st hf]
      show processCalls (Event.read :: _) = _
      simp only [processCalls]
      rw [hm, hp]
  | cons msg inbox ih =>
    intro st hne hlow hreach
    rw [binarySamples_cons, List.length_append] at hlow hreach
    have hs := handleMessage_accumulates E fuel st msg (hne msg (List.mem_cons_self _ _))
      (by omega)
    obtain ⟨c, hc⟩ := ih (handleMessage E fuel st msg).session
      (fun x hx => hne x (List.mem_cons_of_mem _ hx))
      (by rw [hs.2.1, List.length_append]; omega)
      (by rw [hs.2.1, List.length_append]; omega)
    refine ⟨c, ?_⟩
    rw [List.cons_append, messageLoop_processCalls_cons E fuel msg _ st hs.1, hs.2.2, hc,
      hs.2.1, binarySamples_cons msg inbox]
    simp only [List.nil_append, List.append_assoc]

end Loop

/-! ## Lemmas on the pool -/

section Pool

variable {σ M C : Type}

theorem poolNew_frame (E : Engine σ M C) (config : Config) (w : σ) :
    textWrites (poolNew E config w).1 = []
    ∧ poolPuts (poolNew E config w).1 = []
    ∧ readCount (poolNew E config w).1 = 0 := by
  unfold poolNew
  rcases E.New w config.ModelPath with ⟨_ | model, w1⟩
  · simp [textWrites, poolPuts, readCount]
  · dsimp only
    rcases E.NewContext w1 model with ⟨_ | ctx, w2⟩
    · simp [textWrites, poolPuts, readCount]
    · dsimp only
      split <;> simp [textWrites, poolPuts, readCount]

theorem poolGet_frame (E : Engine σ M C) (config : Config)
    (idle : Option (WhisperContext M C)) (w : σ) :
    textWrites (poolGet E config idle w).1 = []
    ∧ poolPuts (poolGet E config idle w).1 = []
    ∧ readCount (poolGet E config idle w).1 = 0 := by
  cases idle with
  | some x => simp [poolGet, textWrites, poolPuts, readCount]
  | none =>
    have h := poolNew_frame E config w
    simp [poolGet, textWrites, poolPuts, readCount, h.1, h.2.1, h.2.2]

/-- The pool has nothing to hand out exactly when it holds no idle item it
chooses and `New` fails, on loading the model or on creating the context. -/
theorem poolGet_none_iff (E : Engine σ M C) (config : Config)
    (idle : Option (WhisperContext M C)) (w : σ) :
    (poolGet E config idle w).2.2 = none ↔
      idle = none ∧ ((E.New w config.ModelPath).1 = none
        ∨ ∃ model, (E.New w config.ModelPath).1 = some model
            ∧ (E.NewContext (E.New w config.ModelPath).2 model).1 = none) := by
  cases idle with
  | some x => simp [poolGet]
  | none =>
    simp only [poolGet, poolNew, true_and]
    rcases hn : E.New w config.ModelPath with ⟨_ | model, w1⟩
    · simp
    · dsimp only
      rcases hc : E.NewContext w1 model with ⟨_ | ctx, w2⟩
      · simp [hc]
      · dsimp only
        split <;> simp [hc]

theorem handleWebSocket_none (E : Engine σ M C) (config : Config) (fuel : Nat)
    (req : Request M C) (w : σ) (hup : req.upgradeOk = true)
    (hget : (poolGet E config req.idle w).2.2 = none) :
    handleWebSocket E config fuel req w
      = (Event.upgrade :: ((poolGet E config req.idle w).1
            ++ [Event.writeText "Error: Server unable to process audio"] ++ closeConn M C),
          (poolGet E config req.idle w).2.1, Outcome.returned) := by
  unfold handleWebSocket
  rw [if_pos hup]
  rcases hg : poolGet E config req.idle w with ⟨t0, w1, _ | x⟩
  · rfl
  · rw [hg] at hget
    simp at hget

theorem handleWebSocket_some (E : Engine σ M C) (config : Config) (fuel : Nat)
    (req : Request M C) (w : σ) (x : WhisperContext M C) (hup : req.upgradeOk = true)
    (hget : (poolGet E config req.idle w).2.2 = some x) :
    handleWebSocket E config fuel req w
      = (match (messageLoop E fuel req.inbox ⟨(poolGet E config req.idle w).2.1, x, []⟩).flow with
        | Flow.stuck =>
          (Event.upgrade :: ((poolGet E config req.idle w).1
            ++ (messageLoop E fuel req.inbox ⟨(poolGet E config req.idle w).2.1, x, []⟩).trace),
            (messageLoop E fuel req.inbox
              ⟨(poolGet E config req.idle w).2.1, x, []⟩).session.engine, Outcome.running)
        | Flow.panic =>
          (Event.upgrade :: ((poolGet E config req.idle w).1
            ++ (messageLoop E fuel req.inbox ⟨(poolGet E config req.idle w).2.1, x, []⟩).trace
            ++ [Event.poolPut (messageLoop E fuel req.inbox
                  ⟨(poolGet E config req.idle w).2.1, x, []⟩).session.whisperCtx]
            ++ closeConn M C),
            (messageLoop E fuel req.inbox
              ⟨(poolGet E config req.idle w).2.1, x, []⟩).session.engine, Outcome.panicked)
        | _ =>
          (Event.upgrade :: ((poolGet E config req.idle w).1
            ++ (messageLoop E fuel req.inbox ⟨(poolGet E config req.idle w).2.1, x, []⟩).trace
            ++ [Event.poolPut (messageLoop E fuel req.inbox
                  ⟨(poolGet E config req.idle w).2.1, x, []⟩).session.whisperCtx]
            ++ closeConn M C),
            (messageLoop E fuel req.inbox
              ⟨(poolGet E config req.idle w).2.1, x, []⟩).session.engine, Outcome.returned)) := by
  unfold handleWebSocket
  rw [if_pos hup]
  rcases hg : poolGet E config req.idle w with ⟨t0, w1, _ | y⟩
  · rw [hg] at hget
    simp at hget
  · rw [hg] at hget
    simp only [Option.some.injEq] at hget
    subst hget
    rfl

end Pool

/-! ## Lemmas on the scripted engine -/

theorem silence_length (n : Nat) : (silence n).length = n := List.length_replicate _ _

theorem silence_samples (n : Nat) : (pcmSamples (silence n)).length = n / 2 := by
  rw [pcmSamples_length, silence_length]

theorem reached_of_lengths {σ M C : Type} (st : Session σ M C) (m : List Byte) (a b : Nat)
    (ha : st.audioBuffer.length = a) (hb : m.length = b) (h : 32000 ≤ a + b / 2) :
    32000 ≤ st.audioBuffer.length + m.length / 2 := by
  rw [ha, hb]; exact h

theorem scripted_finite : FiniteSegments scriptedEngine := by
  intro ctx w
  obtain ⟨results, pending, contexts⟩ := w
  induction pending with
  | nil => exact ⟨[], ⟨results, [], contexts⟩, rfl⟩
  | cons s rest ih =>
    obtain ⟨segs, w1, h⟩ := ih
    exact ⟨⟨s⟩ :: segs, w1, rfl, h⟩

/-! ## Decoding: the claims -/

/-- C2: for every binary message, of any length, the decoding done by
handleWebSocket succeeds and appends exactly floor(len/2) samples to the audio
buffer; a trailing odd byte is ignored; and every slice message[2i : 2i+2]
taken by the loop is in bounds and holds the two bytes that Uint16 reads. -/
theorem decode_appends_half (message : List Byte) (audioBuffer : List Sample) :
    (∃ appended, decode message audioBuffer = some (audioBuffer ++ appended)
        ∧ appended.length = message.length / 2)
    ∧ (∀ last : Byte, message.length % 2 = 0 →
        decode (message ++ [last]) audioBuffer = decode message audioBuffer)
    ∧ (∀ i, i < message.length / (BitsPerSample / 8) →
        (i + 1) * 2 ≤ message.length
        ∧ ∃ b, goSlice message (i * 2) ((i + 1) * 2) = some b
            ∧ (littleEndianUint16 b).isSome = true) := by
  refine ⟨⟨pcmSamples message, decode_eq _ _, pcmSamples_length _⟩, ?_, ?_⟩
  · intro last h
    rw [decode_eq, decode_eq, pcmSamples_append_odd _ _ h]
  · intro i hi
    simp only [BitsPerSample] at hi
    have hb : (i + 1) * 2 ≤ message.length := by omega
    refine ⟨hb, (message.drop (i * 2)).take ((i + 1) * 2 - i * 2), ?_, ?_⟩
    · unfold goSlice
      rw [if_pos ⟨by omega, hb⟩]
    · have hdl : (message.drop (i * 2)).length = message.length - i * 2 := List.length_drop _ _
      have e : (i + 1) * 2 - i * 2 = 2 := by omega
      rw [e]
      rcases hd : message.drop (i * 2) with _ | ⟨lo, _ | ⟨hi2, rest⟩⟩
      · rw [hd] at hdl; simp at hdl; omega
      · rw [hd] at hdl; simp at hdl; omega
      · simp [littleEndianUint16]

/-- C2 at concrete inputs: messages of 0, 1 and 5 bytes append 0, 0 and 2
samples to a buffer of one sample. -/
theorem decode_appends_half_witness :
    (∃ appended, decode [] [0] = some ([0] ++ appended) ∧ appended.length = 0)
    ∧ (∃ appended, decode [7] [0] = some ([0] ++ appended) ∧ appended.length = 0)
    ∧ (∃ appended, decode [1, 2, 3, 4, 5] [0] = some ([0] ++ appended)
        ∧ appended.length = 2) :=
  ⟨(decode_appends_half [] [0]).1, (decode_appends_half [7] [0]).1,
    (decode_appends_half [1, 2, 3, 4, 5] [0]).1⟩

/-- C3: for every binary message and every i below floor(len/2), the bytes
lo = message[2i] and hi = message[2i+1] exist and the i-th sample appended to
the buffer is v/32768, where v is the two-complement signed 16-bit integer
with low byte lo and high byte hi; the sample lies in [-1, 1), so 1 is never
reached, and it is -1 only for the bytes 0x00 0x80. -/
theorem decoded_sample_value (message : List Byte) (audioBuffer : List Sample) (i : Nat)
    (h : i < message.length / 2) :
    ∃ lo hi : Byte, message[2 * i]? = some lo ∧ message[2 * i + 1]? = some hi
      ∧ (∃ out, decode message audioBuffer = some out
          ∧ out[audioBuffer.length + i]? = some (((signed16 lo hi : Int) : ℚ) / 32768))
      ∧ (-1 : ℚ) ≤ ((signed16 lo hi : Int) : ℚ) / 32768
      ∧ ((signed16 lo hi : Int) : ℚ) / 32768 < 1
      ∧ (((signed16 lo hi : Int) : ℚ) / 32768 = -1 ↔ lo = 0 ∧ hi = 128) := by
  have h0 : 2 * i < message.length := by omega
  have h1 : 2 * i + 1 < message.length := by omega
  exact ⟨message[2 * i], message[2 * i + 1], List.getElem?_eq_getElem h0,
    List.getElem?_eq_getElem h1,
    sample_of_bytes message audioBuffer i _ _ (List.getElem?_eq_getElem h0)
      (List.getElem?_eq_getElem h1)⟩

/-- C3 at a concrete input: in the message 0x00 0x80 0xff 0x7f the first
sample is -1 and the second is built from the bytes 0xff 0x7f, which stand for
32767. -/
theorem decoded_sample_value_witness :
    (∃ out, decode [0, 128, 255, 127] [] = some out ∧ out[0]? = some (-1 : Sample))
    ∧ (∃ out, decode [0, 128, 255, 127] [] = some out
        ∧ out[1]? = some (((signed16 255 127 : Int) : ℚ) / 32768))
    ∧ signed16 255 127 = 32767 := by
  refine ⟨?_, ?_, by decide⟩
  · obtain ⟨lo, hi, hlo, hhi, ⟨out, hd, hs⟩, _, _, hmin⟩ :=
      decoded_sample_value [0, 128, 255, 127] [] 0 (by decide)
    have e0 : lo = 0 := by simpa using hlo.symm
    have e1 : hi = 128 := by simpa using hhi.symm
    rw [hmin.mpr ⟨e0, e1⟩] at hs
    exact ⟨out, hd, by simpa using hs⟩
  · obtain ⟨lo, hi, hlo, hhi, ⟨out, hd, hs⟩, _⟩ :=
      decoded_sample_value [0, 128, 255, 127] [] 1 (by decide)
    have e0 : lo = 255 := by simpa using hlo.symm
    have e1 : hi = 127 := by simpa using hhi.symm
    subst e0 e1
    exact ⟨out, hd, by simpa using hs⟩

/-! ## Windowing and transcription: the claims -/

/-- C1: while handling a binary message m with audio buffer b, Process is
called if and only if len(b) + floor(len(m)/2) >= 32000, and then once; when
it is called and the iteration continues the read loop, the buffer is empty
afterwards (and the iteration does continue, with enough fuel, when the engine
hands out finitely many segments and no transcription write fails); when it is
not called the buffer afterwards is b followed by the decoded samples of m.
From an empty buffer, two consecutive 32000-byte messages call Process not at
all and then exactly once, with the buffer empty after the second. -/
theorem inference_trigger {σ M C : Type} (E : Engine σ M C) (fuel : Nat)
    (st : Session σ M C) (m : List Byte) (we : Bool) :
    ((∃ ctx data,
        Event.process ctx data ∈ (handleMessage E fuel st ⟨ReadResult.binary m, we⟩).trace)
      ↔ 32000 ≤ st.audioBuffer.length + m.length / 2)
    ∧ (processCalls (handleMessage E fuel st ⟨ReadResult.binary m, we⟩).trace).length ≤ 1
    ∧ (32000 ≤ st.audioBuffer.length + m.length / 2 →
        (handleMessage E fuel st ⟨ReadResult.binary m, we⟩).flow = Flow.next →
        (handleMessage E fuel st ⟨ReadResult.binary m, we⟩).session.audioBuffer = [])
    ∧ (32000 ≤ st.audioBuffer.length + m.length / 2 →
        ∀ (segs : List Segment) (w1 : σ),
          Yields E st.whisperCtx.Context segs
            (E.Process st.engine st.whisperCtx.Context (st.audioBuffer ++ pcmSamples m)).2 w1 →
          segs.length < fuel → (segs = [] ∨ we = false) →
          (handleMessage E fuel st ⟨ReadResult.binary m, we⟩).flow = Flow.next
          ∧ (handleMessage E fuel st ⟨ReadResult.binary m, we⟩).session.audioBuffer = [])
    ∧ (st.audioBuffer.length + m.length / 2 < 32000 →
        (handleMessage E fuel st ⟨ReadResult.binary m, we⟩).flow = Flow.next
        ∧ (handleMessage E fuel st ⟨ReadResult.binary m, we⟩).session.audioBuffer
            = st.audioBuffer ++ pcmSamples m
        ∧ decode m st.audioBuffer = some (st.audioBuffer ++ pcmSamples m))
    ∧ (∀ (m2 : List Byte) (we2 : Bool),
        st.audioBuffer = [] → m.length = 32000 → m2.length = 32000 →
        processCalls (handleMessage E fuel st ⟨ReadResult.binary m, we⟩).trace = []
        ∧ (handleMessage E fuel st ⟨ReadResult.binary m, we⟩).flow = Flow.next
        ∧ (processCalls (handleMessage E fuel
              (handleMessage E fuel st ⟨ReadResult.binary m, we⟩).session
              ⟨ReadResult.binary m2, we2⟩).trace).length = 1
        ∧ ((handleMessage E fuel
              (handleMessage E fuel st ⟨ReadResult.binary m, we⟩).session
              ⟨ReadResult.binary m2, we2⟩).flow = Flow.next →
            (handleMessage E fuel
              (handleMessage E fuel st ⟨ReadResult.binary m, we⟩).session
              ⟨ReadResult.binary m2, we2⟩).session.audioBuffer = [])) := by
  have hm : ∀ (s : Session σ M C) (x : List Byte) (b : Bool),
      handleMessage E fuel s ⟨ReadResult.binary x, b⟩ = handleBinary E fuel s x b :=
    fun _ _ _ => rfl
  simp only [hm]
  refine ⟨?_, ?_, ?_, ?_, ?_, ?_⟩
  · rw [mem_process_iff, handleBinary_processCalls]
    by_cases h : 32000 ≤ st.audioBuffer.length + m.length / 2 <;> simp [h]
  · rw [handleBinary_processCalls]
    split <;> simp
  · exact fun h hflow => handleBinary_cleared E fuel st m we h hflow
  · intro h segs w1 hy hfuel hor
    have hr := handleBinary_of_yields E fuel st m we segs w1 h hy hfuel
    have hflow : (handleBinary E fuel st m we).flow = Flow.next := by
      rw [hr.1, if_neg]
      rintro ⟨h1, h2⟩
      rcases hor with h3 | h3
      · exact h1 h3
      · rw [h3] at h2; exact Bool.noConfusion h2
    exact ⟨hflow, handleBinary_cleared E fuel st m we h hflow⟩
  · intro h
    rw [handleBinary_below E fuel st m we h]
    exact ⟨rfl, rfl, decode_eq _ _⟩
  · intro m2 we2 hb h1 h2
    have hlow : st.audioBuffer.length + m.length / 2 < 32000 := by
      rw [hb, h1]; decide
    rw [handleBinary_below E fuel st m we hlow]
    have hlen : 32000 ≤ (st.audioBuffer ++ pcmSamples m).length + m2.length / 2 := by
      rw [List.length_append, pcmSamples_length, hb, h1, h2]; decide
    refine ⟨rfl, rfl, ?_, ?_⟩
    · rw [handleBinary_processCalls]
      simp only
      rw [if_pos hlen]
      rfl
    · exact fun hflow => handleBinary_cleared E fuel _ m2 we2 hlen hflow

/-- C1 on the scripted engine: from an empty buffer, a first message of 32000
zero bytes calls Process not at all and a second one exactly once, after
which the buffer is empty; and with the 16000 samples of the first message in
the buffer, the second message is handled to its end with one segment handed
out, the read loop continues and the buffer is empty. -/
theorem inference_trigger_witness :
    processCalls (handleMessage scriptedEngine 2 (scriptedSession [(true, ["hi"])])
        ⟨ReadResult.binary (silence 32000), false⟩).trace = []
    ∧ (handleMessage scriptedEngine 2 (scriptedSession [(true, ["hi"])])
        ⟨ReadResult.binary (silence 32000), false⟩).flow = Flow.next
    ∧ (processCalls (handleMessage scriptedEngine 2
          (handleMessage scriptedEngine 2 (scriptedSession [(true, ["hi"])])
            ⟨ReadResult.binary (silence 32000), false⟩).session
          ⟨ReadResult.binary (silence 32000), false⟩).trace).length = 1
    ∧ ((handleMessage scriptedEngine 2
          (handleMessage scriptedEngine 2 (scriptedSession [(true, ["hi"])])
            ⟨ReadResult.binary (silence 32000), false⟩).session
          ⟨ReadResult.binary (silence 32000), false⟩).flow = Flow.next →
        (handleMessage scriptedEngine 2
          (handleMessage scriptedEngine 2 (scriptedSession [(true, ["hi"])])
            ⟨ReadResult.binary (silence 32000), false⟩).session
          ⟨ReadResult.binary (silence 32000), false⟩).session.audioBuffer = [])
    ∧ (handleMessage scriptedEngine 2
          ⟨⟨[(true, ["hi"])], [], 1⟩, ⟨true, 0⟩, pcmSamples (silence 32000)⟩
          ⟨ReadResult.binary (silence 32000), false⟩).flow = Flow.next
    ∧ (handleMessage scriptedEngine 2
          ⟨⟨[(true, ["hi"])], [], 1⟩, ⟨true, 0⟩, pcmSamples (silence 32000)⟩
          ⟨ReadResult.binary (silence 32000), false⟩).session.audioBuffer = [] :=
  ⟨((inference_trigger scriptedEngine 2 (scriptedSession [(true, ["hi"])]) (silence 32000)
      false).2.2.2.2.2 (silence 32000) false rfl (silence_length _) (silence_length _)).1,
    ((inference_trigger scriptedEngine 2 (scriptedSession [(true, ["hi"])]) (silence 32000)
      false).2.2.2.2.2 (silence 32000) false rfl (silence_length _) (silence_length _)).2.1,
    ((inference_trigger scriptedEngine 2 (scriptedSession [(true, ["hi"])]) (silence 32000)
      false).2.2.2.2.2 (silence 32000) false rfl (silence_length _) (silence_length _)).2.2.1,
    ((inference_trigger scriptedEngine 2 (scriptedSession [(true, ["hi"])]) (silence 32000)
      false).2.2.2.2.2 (silence 32000) false rfl (silence_length _) (silence_length _)).2.2.2,
    (inference_trigger scriptedEngine 2
      ⟨⟨[(true, ["hi"])], [], 1⟩, ⟨true, 0⟩, pcmSamples (silence 32000)⟩ (silence 32000)
      false).2.2.2.1
      (reached_of_lengths _ _ (32000 / 2) 32000 (silence_samples 32000) (silence_length 32000)
        (by decide))
      [⟨"hi"⟩] ⟨[], [], 1⟩ ⟨rfl, rfl⟩ (by decide) (Or.inr rfl)⟩

/-- C4: when a binary message completes a window, Process succeeds and the
engine then hands out the segments s1, ..., sn before reporting that none
remain, then (with fuel above n) for n >= 1 exactly one text message is
written, with payload s1.Text + " " + ... + sn.Text + " ", and for n = 0 no
text message is written. -/
theorem transcription_payload {σ M C : Type} (E : Engine σ M C) (fuel : Nat)
    (st : Session σ M C) (m : List Byte) (we : Bool) (segs : List Segment) (w1 : σ)
    (hreach : 32000 ≤ st.audioBuffer.length + m.length / 2)
    (hok : (E.Process st.engine st.whisperCtx.Context (st.audioBuffer ++ pcmSamples m)).1 = true)
    (hy : Yields E st.whisperCtx.Context segs
      (E.Process st.engine st.whisperCtx.Context (st.audioBuffer ++ pcmSamples m)).2 w1)
    (hfuel : segs.length < fuel) :
    textWrites (handleMessage E fuel st ⟨ReadResult.binary m, we⟩).trace
      = if segs = [] then []
        else [String.join (segs.map fun s => s.Text ++ " ")] := by
  have hr := (handleBinary_of_yields E fuel st m we segs w1 hreach hy hfuel).2.2.2
  show textWrites (handleBinary E fuel st m we).trace = _
  rw [hr, hok, if_pos rfl, List.nil_append, combineText_eq_join, List.map_map]
  rfl

/-- C4 on the scripted engine: three segments a, b, c give the single payload
"a b c " and no segment gives no message. -/
theorem transcription_payload_witness :
    textWrites (handleMessage scriptedEngine 4 (scriptedSession [(true, ["a", "b", "c"])])
        ⟨ReadResult.binary (silence 64000), false⟩).trace = ["a b c "]
    ∧ textWrites (handleMessage scriptedEngine 4 (scriptedSession [(true, [])])
        ⟨ReadResult.binary (silence 64000), false⟩).trace = [] :=
  ⟨(transcription_payload scriptedEngine 4 (scriptedSession [(true, ["a", "b", "c"])])
      (silence 64000) false [⟨"a"⟩, ⟨"b"⟩, ⟨"c"⟩] ⟨[], [], 1⟩
      (by rw [silence, List.length_replicate]; decide) rfl ⟨rfl, rfl, rfl, rfl⟩
      (by decide)).trans (by decide),
    (transcription_payload scriptedEngine 4 (scriptedSession [(true, [])])
      (silence 64000) false [] ⟨[], [], 1⟩
      (by rw [silence, List.length_replicate]; decide) rfl rfl (by decide)).trans (by decide)⟩

/-- C5, evaluated on the scripted engine: a window whose Process call fails
while the engine still hands out the segment "hello" makes the handler write
two text messages for the one inbound message, the error notification and then
a transcription; and when that second write fails the session leaves its read
loop. -/
theorem failed_process_falls_through :
    textWrites (handleMessage scriptedEngine 2 (scriptedSession [(false, ["hello"])])
        ⟨ReadResult.binary (silence 64000), false⟩).trace
      = ["Error: Server unable to process audio", "hello "]
    ∧ (handleMessage scriptedEngine 2 (scriptedSession [(false, ["hello"])])
        ⟨ReadResult.binary (silence 64000), true⟩).flow = Flow.leave := by
  have hreach : 32000 ≤ (scriptedSession [(false, ["hello"])]).audioBuffer.length
      + (silence 64000).length / 2 := by
    rw [silence, List.length_replicate]; decide
  have hy : Yields scriptedEngine (scriptedSession [(false, ["hello"])]).whisperCtx.Context
      [⟨"hello"⟩]
      (scriptedEngine.Process (scriptedSession [(false, ["hello"])]).engine
        (scriptedSession [(false, ["hello"])]).whisperCtx.Context
        ((scriptedSession [(false, ["hello"])]).audioBuffer ++ pcmSamples (silence 64000))).2
      ⟨[], [], 1⟩ := ⟨rfl, rfl⟩
  have hm : ∀ (s : Session Scripted Bool Nat) (x : List Byte) (b : Bool),
      handleMessage scriptedEngine 2 s ⟨ReadResult.binary x, b⟩
        = handleBinary scriptedEngine 2 s x b := fun _ _ _ => rfl
  constructor
  · have hr := (handleBinary_of_yields scriptedEngine 2 _ (silence 64000) false _ _ hreach hy
      (by decide)).2.2.2
    rw [hm, hr]
    decide
  · have hr := (handleBinary_of_yields scriptedEngine 2 _ (silence 64000) true _ _ hreach hy
      (by decide)).1
    rw [hm, hr]
    decide

/-- C7: a text message whose content is any string other than "reset" makes
the handler write exactly one message, "Unknown command", and nothing else
happens: no engine call, and the audio buffer, the engine context and the
engine state are unchanged, and the read loop continues. -/
theorem unknown_command {σ M C : Type} (E : Engine σ M C) (fuel : Nat)
    (st : Session σ M C) (cmd : String) (we : Bool) (h : cmd ≠ "reset") :
    handleMessage E fuel st ⟨ReadResult.text cmd, we⟩
      = ⟨[Event.writeText "Unknown command"], st, Flow.next⟩ := by
  show handleText E st cmd = _
  unfold handleText
  rw [if_neg h]

/-- C7 on the scripted engine, for the commands "bogus", "Reset", "reset " and
the empty string. -/
theorem unknown_command_witness :
    handleMessage scriptedEngine 1 (scriptedSession []) ⟨ReadResult.text "bogus", false⟩
        = ⟨[Event.writeText "Unknown command"], scriptedSession [], Flow.next⟩
    ∧ handleMessage scriptedEngine 1 (scriptedSession []) ⟨ReadResult.text "Reset", false⟩
        = ⟨[Event.writeText "Unknown command"], scriptedSession [], Flow.next⟩
    ∧ handleMessage scriptedEngine 1 (scriptedSession []) ⟨ReadResult.text "reset ", false⟩
        = ⟨[Event.writeText "Unknown command"], scriptedSession [], Flow.next⟩
    ∧ handleMessage scriptedEngine 1 (scriptedSession []) ⟨ReadResult.text "", false⟩
        = ⟨[Event.writeText "Unknown command"], scriptedSession [], Flow.next⟩ :=
  ⟨unknown_command scriptedEngine 1 (scriptedSession []) "bogus" false (by decide),
    unknown_command scriptedEngine 1 (scriptedSession []) "Reset" false (by decide),
    unknown_command scriptedEngine 1 (scriptedSession []) "reset " false (by decide),
    unknown_command scriptedEngine 1 (scriptedSession []) "" false (by decide)⟩

/-! ## Commands and lifecycle: the claims -/

/-- C6: on the text message "reset", either deriving a new context from the
model of the session succeeds, and then the Context field is the new context
(every engine call of the later messages is made on it, up to the next reset
command) and exactly "Transcription reset" is written; or it fails, and then
the Context field is unchanged and exactly "Error: Reset failed" is written.
In both cases the Model field and the audio buffer are unchanged and the read
loop continues. -/
theorem reset_command {σ M C : Type} (E : Engine σ M C) (fuel : Nat)
    (st : Session σ M C) (we : Bool) :
    (∀ (newCtx : C) (w1 : σ),
        E.NewContext st.engine st.whisperCtx.Model = (some newCtx, w1) →
        handleMessage E fuel st ⟨ReadResult.text "reset", we⟩
          = ⟨[Event.newContext st.whisperCtx.Model, Event.writeText "Transcription reset"],
              ⟨w1, ⟨st.whisperCtx.Model, newCtx⟩, st.audioBuffer⟩, Flow.next⟩
        ∧ ∀ (fuel2 : Nat) (inbox : List Inbound),
            (∀ msg ∈ inbox, msg.read ≠ ReadResult.text "reset") →
            ∀ c ∈ engineContexts (messageLoop E fuel2 inbox
                (handleMessage E fuel st ⟨ReadResult.text "reset", we⟩).session).trace,
              c = newCtx)
    ∧ (∀ (w1 : σ),
        E.NewContext st.engine st.whisperCtx.Model = (none, w1) →
        handleMessage E fuel st ⟨ReadResult.text "reset", we⟩
          = ⟨[Event.newContext st.whisperCtx.Model, Event.writeText "Error: Reset failed"],
              ⟨w1, st.whisperCtx, st.audioBuffer⟩, Flow.next⟩)
    ∧ (handleMessage E fuel st ⟨ReadResult.text "reset", we⟩).session.whisperCtx.Model
        = st.whisperCtx.Model
    ∧ (handleMessage E fuel st ⟨ReadResult.text "reset", we⟩).session.audioBuffer
        = st.audioBuffer
    ∧ (handleMessage E fuel st ⟨ReadResult.text "reset", we⟩).flow = Flow.next
    ∧ (textWrites (handleMessage E fuel st ⟨ReadResult.text "reset", we⟩).trace).length = 1 := by
  have hm : handleMessage E fuel st ⟨ReadResult.text "reset", we⟩ = handleText E st "reset" :=
    rfl
  have hf := handleText_frame E st "reset"
  rw [hm]
  refine ⟨?_, ?_, hf.2.2.2.1, hf.2.2.2.2.1, hf.2.2.2.2.2.1, hf.2.2.2.2.2.2⟩
  · intro newCtx w1 hn
    have hres : handleText E st "reset"
        = ⟨[Event.newContext st.whisperCtx.Model, Event.writeText "Transcription reset"],
            ⟨w1, ⟨st.whisperCtx.Model, newCtx⟩, st.audioBuffer⟩, Flow.next⟩ := by
      unfold handleText
      rw [if_pos rfl, hn]
    refine ⟨hres, ?_⟩
    intro fuel2 inbox hno c hc
    rw [hres] at hc
    exact messageLoop_contexts E fuel2 inbox _ hno c hc
  · intro w1 hn
    unfold handleText
    rw [if_pos rfl, hn]

/-- C6 on the scripted engine: a reset on a sound model installs context 1
in place of context 0, and the window submitted next is processed on context
1; a reset on a model that cannot derive contexts keeps the session as it
was and writes the failure notice. -/
theorem reset_command_witness :
    handleMessage scriptedEngine 1 (scriptedSession []) ⟨ReadResult.text "reset", false⟩
        = ⟨[Event.newContext true, Event.writeText "Transcription reset"],
            ⟨⟨[], [], 2⟩, ⟨true, 1⟩, []⟩, Flow.next⟩
    ∧ (∀ c ∈ engineContexts (messageLoop scriptedEngine 2
          [⟨ReadResult.binary (silence 64000), false⟩]
          (handleMessage scriptedEngine 1 (scriptedSession [])
            ⟨ReadResult.text "reset", false⟩).session).trace, c = 1)
    ∧ handleMessage scriptedEngine 1 staleSession ⟨ReadResult.text "reset", false⟩
        = ⟨[Event.newContext false, Event.writeText "Error: Reset failed"],
            staleSession, Flow.next⟩ :=
  ⟨((reset_command scriptedEngine 1 (scriptedSession []) false).1 1 ⟨[], [], 2⟩ rfl).1,
    ((reset_command scriptedEngine 1 (scriptedSession []) false).1 1 ⟨[], [], 2⟩ rfl).2 2
      [⟨ReadResult.binary (silence 64000), false⟩] (by simp),
    (reset_command scriptedEngine 1 staleSession false).2.1 ⟨[], [], 1⟩ rfl⟩

/-- C8: when the pool has nothing to hand out (no idle item, and New fails
on loading the model or on creating the context), handleWebSocket writes
exactly one text message, "Error: Server unable to process audio", reads no
inbound message, puts nothing into the pool and returns; all it does after the
pool call is that write and the deferred closing of the connection. -/
theorem acquisition_failure {σ M C : Type} (E : Engine σ M C) (config : Config) (fuel : Nat)
    (req : Request M C) (w : σ) (hup : req.upgradeOk = true)
    (hget : (poolGet E config req.idle w).2.2 = none) :
    (handleWebSocket E config fuel req w).1
        = Event.upgrade :: ((poolGet E config req.idle w).1
            ++ [Event.writeText "Error: Server unable to process audio",
                Event.writeClose, Event.connClose])
    ∧ textWrites (handleWebSocket E config fuel req w).1
        = ["Error: Server unable to process audio"]
    ∧ readCount (handleWebSocket E config fuel req w).1 = 0
    ∧ poolPuts (handleWebSocket E config fuel req w).1 = []
    ∧ (handleWebSocket E config fuel req w).2.2 = Outcome.returned
    ∧ req.idle = none
    ∧ ((E.New w config.ModelPath).1 = none
        ∨ ∃ model, (E.New w config.ModelPath).1 = some model
            ∧ (E.NewContext (E.New w config.ModelPath).2 model).1 = none) := by
  have hg := poolGet_frame E config req.idle w
  have hn := (poolGet_none_iff E config req.idle w).mp hget
  rw [handleWebSocket_none E config fuel req w hup hget]
  refine ⟨by simp [closeConn], ?_, ?_, ?_, rfl, hn.1, hn.2⟩
  · show textWrites (Event.upgrade :: _) = _
    simp only [textWrites, textWrites_append, hg.1, closeConn, List.nil_append,
      List.append_nil]
  · show readCount (Event.upgrade :: _) = _
    simp only [readCount, readCount_append, hg.2.2, closeConn]
  · show poolPuts (Event.upgrade :: _) = _
    simp only [poolPuts, poolPuts_append, hg.2.1, closeConn, List.append_nil]

/-- C8 on the scripted engine: with an empty pool and a model that fails to
load, the whole run is the upgrade, the pool call, the failed load, the
notification and the closing of the connection, although a message is
waiting. -/
theorem acquisition_failure_witness :
    (handleWebSocket scriptedEngine ⟨"", ":8080", ""⟩ 1
        ⟨true, none, [⟨ReadResult.text "reset", false⟩]⟩ (scriptedStart [])).1
      = [Event.upgrade, Event.poolGet, Event.whisperNew "",
          Event.writeText "Error: Server unable to process audio",
          Event.writeClose, Event.connClose]
    ∧ (handleWebSocket scriptedEngine ⟨"", ":8080", ""⟩ 1
        ⟨true, none, [⟨ReadResult.text "reset", false⟩]⟩ (scriptedStart [])).2.2
      = Outcome.returned :=
  ⟨(acquisition_failure scriptedEngine ⟨"", ":8080", ""⟩ 1
      ⟨true, none, [⟨ReadResult.text "reset", false⟩]⟩ (scriptedStart []) rfl rfl).1,
    (acquisition_failure scriptedEngine ⟨"", ":8080", ""⟩ 1
      ⟨true, none, [⟨ReadResult.text "reset", false⟩]⟩ (scriptedStart []) rfl rfl).2.2.2.2.1⟩

/-- C9: a session that acquired an engine context x puts it back exactly
once.  Whenever handleWebSocket ends, its calls are the upgrade, the pool
call, the whole read loop, then one Put of the pooled item (still holding the
model of x), then the closing of the connection, with no Put inside the read
loop; it ends by returning, never by a panic.  While it is still running no
Put has been made.  And when the engine hands out only finite sequences of
segments it does end, on every finite script of inbound messages, for all
fuel from some bound on: on a read error, a close, or a failed write of a
transcription alike. -/
theorem context_released_once {σ M C : Type} (E : Engine σ M C) (config : Config)
    (fuel : Nat) (req : Request M C) (w : σ) (x : WhisperContext M C)
    (hup : req.upgradeOk = true) (hget : (poolGet E config req.idle w).2.2 = some x) :
    ((handleWebSocket E config fuel req w).2.2 ≠ Outcome.running →
        ∃ y : WhisperContext M C,
          (handleWebSocket E config fuel req w).1
            = Event.upgrade :: ((poolGet E config req.idle w).1
                ++ (messageLoop E fuel req.inbox
                      ⟨(poolGet E config req.idle w).2.1, x, []⟩).trace
                ++ [Event.poolPut y, Event.writeClose, Event.connClose])
          ∧ poolPuts (messageLoop E fuel req.inbox
                ⟨(poolGet E config req.idle w).2.1, x, []⟩).trace = []
          ∧ 1 ≤ readCount (messageLoop E fuel req.inbox
                ⟨(poolGet E config req.idle w).2.1, x, []⟩).trace
          ∧ poolPuts (handleWebSocket E config fuel req w).1 = [y]
          ∧ y.Model = x.Model
          ∧ (handleWebSocket E config fuel req w).2.2 = Outcome.returned)
    ∧ ((handleWebSocket E config fuel req w).2.2 = Outcome.running →
        poolPuts (handleWebSocket E config fuel req w).1 = [])
    ∧ (FiniteSegments E →
        ∃ n, ∀ k, (handleWebSocket E config (n + k) req w).2.2 = Outcome.returned) := by
  have hg := poolGet_frame E config req.idle w
  have hw : ∀ f, handleWebSocket E config f req w = _ :=
    fun f => handleWebSocket_some E config f req w x hup hget
  have hl := messageLoop_frame E fuel req.inbox ⟨(poolGet E config req.idle w).2.1, x, []⟩
  refine ⟨?_, ?_, ?_⟩
  · intro hrun
    rw [hw fuel] at hrun ⊢
    cases hfl : (messageLoop E fuel req.inbox ⟨(poolGet E config req.idle w).2.1, x, []⟩).flow with
    | next => exact absurd hfl hl.2.1
    | panic => exact absurd hfl hl.2.2.1
    | stuck =>
      rw [hfl] at hrun
      exact absurd rfl hrun
    | leave =>
      refine ⟨(messageLoop E fuel req.inbox
        ⟨(poolGet E config req.idle w).2.1, x, []⟩).session.whisperCtx, ?_, hl.1, hl.2.2.2.2, ?_,
        hl.2.2.2.1, rfl⟩
      · simp [closeConn]
      · show poolPuts (Event.upgrade :: _) = _
        simp only [poolPuts, poolPuts_append, hg.2.1, hl.1, closeConn, List.nil_append,
          List.append_nil]
  · intro hrun
    rw [hw fuel] at hrun ⊢
    cases hfl : (messageLoop E fuel req.inbox ⟨(poolGet E config req.idle w).2.1, x, []⟩).flow with
    | next => exact absurd hfl hl.2.1
    | panic => exact absurd hfl hl.2.2.1
    | leave =>
      rw [hfl] at hrun
      exact absurd hrun (by simp)
    | stuck =>
      show poolPuts (Event.upgrade :: _) = _
      simp only [poolPuts, poolPuts_append, hg.2.1, hl.1, List.append_nil]
  · intro hfin
    obtain ⟨n, hn⟩ := messageLoop_finishes E hfin req.inbox
      ⟨(poolGet E config req.idle w).2.1, x, []⟩
    refine ⟨n, fun k => ?_⟩
    rw [hw (n + k), hn k]

/-- C9 on the scripted engine: a session that got context 0 from the pool
and receives a full window whose transcription cannot be written ends by
returning for all fuel from some bound on, and has made no Put while it is
still in its segment loop. -/
theorem context_released_once_witness :
    (∃ n, ∀ k, (handleWebSocket scriptedEngine ⟨"model.bin", ":8080", ""⟩ (n + k)
        ⟨true, some ⟨true, 0⟩, [⟨ReadResult.binary (silence 64000), true⟩]⟩
        (scriptedStart [(true, ["hi"])])).2.2 = Outcome.returned)
    ∧ ((handleWebSocket scriptedEngine ⟨"model.bin", ":8080", ""⟩ 1
        ⟨true, some ⟨true, 0⟩, [⟨ReadResult.binary (silence 64000), true⟩]⟩
        (scriptedStart [(true, ["hi"])])).2.2 = Outcome.running →
      poolPuts (handleWebSocket scriptedEngine ⟨"model.bin", ":8080", ""⟩ 1
        ⟨true, some ⟨true, 0⟩, [⟨ReadResult.binary (silence 64000), true⟩]⟩
        (scriptedStart [(true, ["hi"])])).1 = []) :=
  ⟨(context_released_once scriptedEngine ⟨"model.bin", ":8080", ""⟩ 0
      ⟨true, some ⟨true, 0⟩, [⟨ReadResult.binary (silence 64000), true⟩]⟩
      (scriptedStart [(true, ["hi"])]) ⟨true, 0⟩ rfl rfl).2.2 scripted_finite,
    (context_released_once scriptedEngine ⟨"model.bin", ":8080", ""⟩ 1
      ⟨true, some ⟨true, 0⟩, [⟨ReadResult.binary (silence 64000), true⟩]⟩
      (scriptedStart [(true, ["hi"])]) ⟨true, 0⟩ rfl rfl).2.1⟩

/-- C10: over any messages handled from a buffer b on (b empty at session
start and after an inference) that keep the samples received below 32000, the
audio buffer is b followed by the decoded samples of the binary messages, in
arrival order, text messages adding and removing nothing, and nothing is
submitted; the binary message that then reaches 32000 submits that whole
buffer with its own samples as one window, in a single Process call, so the
window has at least 32000 samples and as many more as were received. -/
theorem buffer_is_concatenation {σ M C : Type} (E : Engine σ M C) (fuel : Nat)
    (inbox : List Inbound) (st : Session σ M C) (m : List Byte) (we : Bool)
    (hne : ∀ msg ∈ inbox, msg.read ≠ ReadResult.err)
    (hlow : st.audioBuffer.length + (binarySamples inbox).length < 32000) :
    (messageLoop E fuel inbox st).session.audioBuffer = st.audioBuffer ++ binarySamples inbox
    ∧ processCalls (messageLoop E fuel inbox st).trace = []
    ∧ (32000 ≤ st.audioBuffer.length + (binarySamples inbox).length + m.length / 2 →
        ∃ c, processCalls
            (messageLoop E fuel (inbox ++ [⟨ReadResult.binary m, we⟩]) st).trace
          = [(c, st.audioBuffer ++ binarySamples inbox ++ pcmSamples m)]
        ∧ (st.audioBuffer ++ binarySamples inbox ++ pcmSamples m).length
          = st.audioBuffer.length + (binarySamples inbox).length + m.length / 2) := by
  have ha := messageLoop_accumulates E fuel inbox st hne hlow
  refine ⟨ha.1, ha.2.1, fun hreach => ?_⟩
  obtain ⟨c, hc⟩ := messageLoop_submits E fuel m we inbox st hne hlow hreach
  exact ⟨c, hc, by simp only [List.length_append, pcmSamples_length]⟩

/-- C10 on the scripted engine: 20000 bytes, a reset, 20001 bytes and an
unknown command leave 20000 samples in the buffer, and a further message of
24002 bytes submits one window of 32001 samples, more than the threshold. -/
theorem buffer_is_concatenation_witness :
    (messageLoop scriptedEngine 2
        [⟨ReadResult.binary (silence 20000), false⟩, ⟨ReadResult.text "reset", false⟩,
         ⟨ReadResult.binary (silence 20001), false⟩, ⟨ReadResult.text "x", false⟩]
        (scriptedSession [])).session.audioBuffer
      = pcmSamples (silence 20000) ++ pcmSamples (silence 20001)
    ∧ ∃ c window, processCalls (messageLoop scriptedEngine 2
        ([⟨ReadResult.binary (silence 20000), false⟩, ⟨ReadResult.text "reset", false⟩,
          ⟨ReadResult.binary (silence 20001), false⟩, ⟨ReadResult.text "x", false⟩]
          ++ [⟨ReadResult.binary (silence 24002), false⟩])
        (scriptedSession [])).trace = [(c, window)]
      ∧ window.length = 32001 := by
  have h := buffer_is_concatenation scriptedEngine 2
    [⟨ReadResult.binary (silence 20000), false⟩, ⟨ReadResult.text "reset", false⟩,
     ⟨ReadResult.binary (silence 20001), false⟩, ⟨ReadResult.text "x", false⟩]
    (scriptedSession []) (silence 24002) false (by simp)
    (by simp [binarySamples, pcmSamples_length, silence_length, scriptedSession])
  refine ⟨h.1.trans (by
    simp only [binarySamples, scriptedSession, List.nil_append, List.append_nil]), ?_⟩
  obtain ⟨c, hc, hlen⟩ := h.2.2
    (by simp [binarySamples, pcmSamples_length, silence_length, scriptedSession])
  refine ⟨c, _, hc, ?_⟩
  rw [hlen]
  simp [binarySamples, pcmSamples_length, silence_length, scriptedSession]

end WhisperMeet
